import Mathlib

/-!
Verification of the card-document builder (`card_document_builder.py` and
`document_builder/tags.py`).

Strings are modelled as `List Char` (`Str` below).  Python's `json` values are
modelled by the inductive `JVal`; `json.dumps` / `json.loads` by an executable
renderer `dumps` and parser `loads` over character lists, proved inverse on
rendered output.  Dictionaries are modelled as ordered association lists with
last-occurrence-wins lookup, matching insertion-then-overwrite semantics of
Python dicts.
-/

set_option maxHeartbeats 1000000

namespace CardDocs

/-- Strings, modelled as lists of characters. -/
abbrev Str := List Char

/-- Shorthand to turn a Lean string literal into the `Str` model. -/
def S (s : String) : Str := s.toList

/-! ### Text normalizer (`_norm_name`, `_slug`, python `str.strip`) -/

/-- Python `\s` / `str.strip()` whitespace, ASCII model. -/
def pyWs (c : Char) : Bool :=
  c = ' ' || c = '\t' || c = '\n' || c = '\r' || c = '\x0b' || c = '\x0c'

/-- Python `str.strip()`: drop whitespace from both ends. -/
def pyStrip (s : Str) : Str :=
  ((s.dropWhile pyWs).reverse.dropWhile pyWs).reverse

/-- Collapse every maximal run of whitespace to one space and strip the ends:
`re.sub(r"\s+", " ", s).strip()`, as in `_norm_name`. -/
def collapseWs (s : Str) : Str :=
  (((s.splitOnP pyWs).filter (· ≠ [])).intersperse (S " ")).flatten

/-- `_norm_name`: `None` and the empty string map to the empty string, any
other string has its whitespace runs collapsed. -/
def normName : Option Str → Str
  | none => []
  | some s => if s = [] then [] else collapseWs s

/-- ASCII lowercasing of one character, the model of `str.lower()`. -/
def lowerChar (c : Char) : Char :=
  if 'A' ≤ c ∧ c ≤ 'Z' then Char.ofNat (c.toNat + 32) else c

/-- `str.lower()` over a whole string. -/
def pyLower (s : Str) : Str := s.map lowerChar

/-- The character class `[a-z0-9]` of the slug regex. -/
def slugKeep (c : Char) : Bool :=
  ('a' ≤ c && c ≤ 'z') || ('0' ≤ c && c ≤ '9')

/-- `re.sub(r"[^a-z0-9]+", "-", s)`: keep `[a-z0-9]`, replace each maximal run
of other characters by a single hyphen.  The flag records whether the current
position is inside such a run (so no second hyphen is emitted). -/
def hyphenRuns : Bool → Str → Str
  | _, [] => []
  | inRun, c :: rest =>
    if slugKeep c then c :: hyphenRuns false rest
    else if inRun then hyphenRuns true rest
    else '-' :: hyphenRuns true rest

/-- Python `str.strip("-")`: drop hyphens from both ends. -/
def stripHyphens (s : Str) : Str :=
  ((s.dropWhile (· = '-')).reverse.dropWhile (· = '-')).reverse

/-- `_slug`: lowercase, collapse non-`[a-z0-9]` runs to single hyphens, strip
leading and trailing hyphens. -/
def slug (s : Str) : Str :=
  stripHyphens (hyphenRuns false (pyLower s))

/-! ### Idempotence of `slug` (claim C8) -/

/-- Every character of a slug is `[a-z0-9]` or a hyphen. -/
def slugAlphabet (s : Str) : Prop := ∀ c ∈ s, slugKeep c = true ∨ c = '-'

/-- No two adjacent hyphens. -/
def noDoubleHyphen : Str → Prop
  | [] => True
  | [_] => True
  | a :: b :: rest => ¬(a = '-' ∧ b = '-') ∧ noDoubleHyphen (b :: rest)

theorem lowerChar_fixed {c : Char} (h : slugKeep c = true ∨ c = '-') :
    lowerChar c = c := by
  unfold lowerChar
  rcases h with h | rfl
  · simp only [slugKeep, Bool.or_eq_true, Bool.and_eq_true, decide_eq_true_eq] at h
    rw [if_neg]
    rintro ⟨h1, h2⟩
    rcases h with ⟨ha, _⟩ | ⟨h0, h9⟩
    · exact absurd (le_trans ha h2) (by decide)
    · exact absurd (le_trans h1 h9) (by decide)
  · decide

theorem hyphenRuns_alphabet (b : Bool) (s : Str) : slugAlphabet (hyphenRuns b s) := by
  induction s generalizing b with
  | nil => intro c hc; simp [hyphenRuns] at hc
  | cons a rest ih =>
    intro c hc
    unfold hyphenRuns at hc
    by_cases hk : slugKeep a
    · simp only [if_pos hk, List.mem_cons] at hc
      rcases hc with rfl | hc
      · exact Or.inl hk
      · exact ih false c hc
    · simp only [if_neg hk] at hc
      by_cases hb : b
      · simp only [if_pos hb] at hc; exact ih true c hc
      · simp only [if_neg hb, List.mem_cons] at hc
        rcases hc with rfl | hc
        · exact Or.inr rfl
        · exact ih true c hc

/-- `hyphenRuns true` never emits a leading hyphen. -/
theorem hyphenRuns_true_head (s : Str) :
    ∀ c t, hyphenRuns true s = c :: t → c ≠ '-' := by
  induction s with
  | nil => intro c t h; simp [hyphenRuns] at h
  | cons a rest ih =>
    intro c t h
    unfold hyphenRuns at h
    by_cases hk : slugKeep a
    · simp only [if_pos hk, List.cons.injEq] at h
      rcases h with ⟨rfl, _⟩
      intro hEq; rw [hEq] at hk; exact absurd hk (by decide)
    · simp only [if_neg hk, if_pos] at h
      exact ih c t h

theorem hyphenRuns_noDouble (b : Bool) (s : Str) : noDoubleHyphen (hyphenRuns b s) := by
  induction s generalizing b with
  | nil => simp [hyphenRuns, noDoubleHyphen]
  | cons a rest ih =>
    unfold hyphenRuns
    by_cases hk : slugKeep a
    · simp only [if_pos hk]
      have tail := ih false
      match hEq : hyphenRuns false rest with
      | [] => simp [noDoubleHyphen]
      | c :: t =>
        rw [hEq] at tail
        refine ⟨?_, tail⟩
        rintro ⟨rfl, _⟩
        exact absurd hk (by decide)
    · simp only [if_neg hk]
      by_cases hb : b
      · simp only [if_pos hb]; exact ih true
      · simp only [if_neg hb]
        have tail := ih true
        match hEq : hyphenRuns true rest with
        | [] => simp [noDoubleHyphen]
        | c :: t =>
          rw [hEq] at tail
          refine ⟨?_, tail⟩
          rintro ⟨_, rfl⟩
          exact hyphenRuns_true_head rest '-' t hEq rfl

theorem noDoubleHyphen_tail {a : Char} {s : Str} (h : noDoubleHyphen (a :: s)) :
    noDoubleHyphen s := by
  cases s with
  | nil => trivial
  | cons b t => exact h.2

theorem noDoubleHyphen_append_left :
    ∀ s r : Str, noDoubleHyphen (s ++ r) → noDoubleHyphen s
  | [], _, _ => trivial
  | [_], _, _ => trivial
  | _ :: b :: s, r, h => ⟨h.1, noDoubleHyphen_append_left (b :: s) r h.2⟩

theorem noDoubleHyphen_append_right :
    ∀ s r : Str, noDoubleHyphen (s ++ r) → noDoubleHyphen r
  | [], _, h => h
  | _ :: s, r, h => noDoubleHyphen_append_right s r (noDoubleHyphen_tail h)

/-- The first element surviving `dropWhile` fails the predicate. -/
theorem dropWhile_head_false {p : Char → Bool} :
    ∀ (s : Str) {c t}, s.dropWhile p = c :: t → p c = false
  | [], c, t, h => by simp at h
  | a :: s, c, t, h => by
    rw [List.dropWhile_cons] at h
    by_cases ha : p a
    · exact dropWhile_head_false s (by simpa [ha] using h)
    · simp only [ha, if_false] at h
      cases h
      simpa using ha

theorem dropWhile_eq_self {p : Char → Bool} {s : Str}
    (h : ∀ c t, s = c :: t → p c = false) : s.dropWhile p = s := by
  cases s with
  | nil => rfl
  | cons a t => rw [List.dropWhile_cons, h a t rfl]; simp

/-- A string over the slug alphabet with no double hyphen is untouched by the
run-collapsing pass (the `true` state additionally needs a non-hyphen head). -/
theorem hyphenRuns_fixed :
    ∀ (g : Str), slugAlphabet g → noDoubleHyphen g →
      ∀ b : Bool, (b = true → ∀ c t, g = c :: t → c ≠ '-') → hyphenRuns b g = g := by
  intro g
  induction g with
  | nil => intro _ _ b _; cases b <;> rfl
  | cons a t ih =>
    intro halpha hnd b hb
    rcases halpha a (List.mem_cons_self a t) with hk | rfl
    · unfold hyphenRuns
      rw [if_pos hk, ih (fun c hc => halpha c (List.mem_cons_of_mem a hc))
        (noDoubleHyphen_tail hnd) false (by simp)]
    · have hb' : b = false := by
        cases b with
        | false => rfl
        | true => exact absurd rfl (hb rfl '-' t rfl)
      subst hb'
      unfold hyphenRuns
      rw [if_neg (by decide), if_neg (by simp)]
      rw [ih (fun c hc => halpha c (List.mem_cons_of_mem _ hc)) (noDoubleHyphen_tail hnd) true ?_]
      intro _ c u hcu hc'
      rw [hcu] at hnd
      exact hnd.1 ⟨rfl, hc'⟩

/-- A string with a non-hyphen head and a non-hyphen last character is
untouched by hyphen stripping. -/
theorem stripHyphens_fixed {g : Str}
    (hHead : ∀ c t, g = c :: t → c ≠ '-')
    (hLast : ∀ c t, g.reverse = c :: t → c ≠ '-') : stripHyphens g = g := by
  unfold stripHyphens
  rw [dropWhile_eq_self (s := g) (by intro c t h; simpa using hHead c t h)]
  rw [dropWhile_eq_self (s := g.reverse) (by intro c t h; simpa using hLast c t h)]
  exact List.reverse_reverse g

/-- The result of `slug` lies in the slug alphabet, has no double hyphen, and
has no hyphen at either end. -/
theorem slug_good (s : Str) :
    slugAlphabet (slug s) ∧ noDoubleHyphen (slug s) ∧
      (∀ c t, slug s = c :: t → c ≠ '-') ∧
      (∀ c t, (slug s).reverse = c :: t → c ≠ '-') := by
  set m := hyphenRuns false (pyLower s) with hm
  have halpha : slugAlphabet m := hyphenRuns_alphabet false (pyLower s)
  have hnd : noDoubleHyphen m := hyphenRuns_noDouble false (pyLower s)
  -- first pass: drop leading hyphens
  set d1 := m.dropWhile (· = '-') with hd1
  obtain ⟨pre1, hpre1⟩ : ∃ pre1, pre1 ++ d1 = m := ⟨m.takeWhile (· = '-'), List.takeWhile_append_dropWhile _ _⟩
  -- second pass: drop trailing hyphens, working on the reversal
  set d2 := d1.reverse.dropWhile (· = '-') with hd2
  obtain ⟨pre2, hpre2⟩ : ∃ pre2, pre2 ++ d2 = d1.reverse := ⟨d1.reverse.takeWhile (· = '-'), List.takeWhile_append_dropWhile _ _⟩
  have hslug : slug s = d2.reverse := by
    rw [slug, stripHyphens, ← hm, ← hd1, ← hd2]
  -- the final result is a front part of `d1`
  have hfront : d2.reverse ++ pre2.reverse = d1 := by
    have := congrArg List.reverse hpre2
    simpa [List.reverse_append] using this
  have hmem : ∀ c ∈ d2.reverse, c ∈ m := by
    intro c hc
    have h1 : c ∈ d1 := hfront ▸ List.mem_append_left _ hc
    exact hpre1 ▸ List.mem_append_right _ h1
  refine ⟨fun c hc => halpha c (hmem c (hslug ▸ hc)), ?_, ?_, ?_⟩
  · rw [hslug]
    have hndd1 : noDoubleHyphen d1 :=
      noDoubleHyphen_append_right pre1 d1 (by rw [hpre1]; exact hnd)
    exact noDoubleHyphen_append_left _ _ (by rw [hfront]; exact hndd1)
  · intro c t hct
    rw [hslug] at hct
    have h1 : m.dropWhile (· = '-') = c :: (t ++ pre2.reverse) := by
      rw [← hd1, ← hfront, hct]; simp
    have := dropWhile_head_false _ h1
    simpa using this
  · intro c t hct
    rw [hslug, List.reverse_reverse] at hct
    have h2 : d1.reverse.dropWhile (· = '-') = c :: t := by rw [← hd2]; exact hct
    have := dropWhile_head_false _ h2
    simpa using this

/-- `pyLower` fixes slug output. -/
theorem pyLower_slug (s : Str) : pyLower (slug s) = slug s := by
  have h := (slug_good s).1
  unfold pyLower
  have := List.map_congr_left (fun c hc => lowerChar_fixed (h c hc))
  simpa using this

theorem slug_idem (s : Str) : slug (slug s) = slug s := by
  obtain ⟨halpha, hnd, hHead, hLast⟩ := slug_good s
  rw [slug, pyLower_slug, hyphenRuns_fixed _ halpha hnd false (by simp)]
  exact stripHyphens_fixed hHead hLast

/-! ### Python JSON values

`JVal` models the values `json.loads` can produce and the builder stores in
document metadata; numbers are modelled as integers (the repository's card
data uses no fractional numbers). -/

inductive JVal where
  | null
  | boolean (b : Bool)
  | num (n : Int)
  | str (s : Str)
  | arr (xs : List JVal)
  | obj (fields : List (Str × JVal))

/-- Python dict lookup on an association list built by repeated insertion:
the last binding of a key wins. -/
def getField (fields : List (Str × JVal)) (k : Str) : Option JVal :=
  fields.foldl (fun acc kv => if kv.1 = k then some kv.2 else acc) none

/-- Python truthiness of a JSON value (`bool(v)`). -/
def jTruthy : JVal → Bool
  | .null => false
  | .boolean b => b
  | .num n => n ≠ 0
  | .str s => !s.isEmpty
  | .arr xs => !xs.isEmpty
  | .obj fs => !fs.isEmpty

/-! ### Creature records and the evolution-chain resolver -/

/-- One `pokemon` record of an expansion, with the fields the builder reads.
`none` models an absent key (and for `abilities`/`attacks`/`types` the builder
treats absent and empty alike via `or []`). -/
structure Attack where
  name : Option Str
  cost : Option JVal
  damage : Option JVal
  effect : Option Str

/-- An ability entry: either a one-key dict `{name: text}` (modelled as the
list of its items) or a bare string. -/
inductive Ability where
  | named (items : List (Str × Str))
  | plain (text : Str)

structure Creature where
  name : Option Str
  evolves_from : Option Str
  types : List Str
  stage : Option Str
  hp : Option JVal
  retreat : Option JVal
  weakness : Option JVal
  abilities : List Ability
  attacks : List Attack

/-- A creature with only identity fields set, for resolver-level examples. -/
def mkCreature (name evolves_from : Option Str) : Creature :=
  ⟨name, evolves_from, [], none, none, none, none, [], []⟩

/-- Python truthiness of an optional string (`p.get("name")`). -/
def truthyOpt : Option Str → Bool
  | none => false
  | some s => s ≠ []

/-- The `name_map` dict of `_expansion_to_docs`: normalized name → record,
keeping only records with a truthy raw `name`; later records overwrite. -/
def nameMap (ps : List Creature) (key : Str) : Option Creature :=
  ps.foldl
    (fun acc p => if truthyOpt p.name = true ∧ normName p.name = key then some p else acc)
    none

/-- The loop body of `_find_base`, with explicit fuel: one unit of fuel per
`while` iteration.  `none` would mean the loop ran out of fuel; the
termination theorem shows `|records| + 1` units always suffice. -/
def findBaseAux (ps : List Creature) (n : Str) : Nat → List Str → Str → Option Str
  | 0, _, _ => none
  | fuel + 1, seen, cur =>
    if cur = [] ∨ cur ∈ seen then some n
    else
      match nameMap ps cur with
      | none => some n
      | some card =>
        let parent := normName card.evolves_from
        if parent = [] then some cur
        else findBaseAux ps n fuel (cur :: seen) parent

/-- `_find_base(n)`: walk `evolves_from` links from `n`. -/
def findBase (ps : List Creature) (n : Str) : Str :=
  (findBaseAux ps n (ps.length + 1) [] n).getD n

/-- The `has_children` set of `_expansion_to_docs`: `nm` is in it iff some
record (including possibly the record named `nm` itself) has a non-empty
normalized `evolves_from` equal to `nm`. -/
def hasChildren (ps : List Creature) (nm : Str) : Bool :=
  ps.any (fun p => normName p.evolves_from ≠ [] ∧ normName p.evolves_from = nm)

/-- One raw evolves-from link: some record's normalized name is `a` and its
normalized `evolves_from` is the non-empty `b`. -/
def rawLink (ps : List Creature) (a b : Str) : Prop :=
  ∃ p ∈ ps, normName p.name = a ∧ normName p.evolves_from = b ∧ b ≠ []

/-- The evolves-from links contain no cycle. -/
def Acyclic (ps : List Creature) : Prop :=
  ∀ a, ¬ Relation.TransGen (rawLink ps) a a

/-- Every non-empty evolves-from reference resolves to a record in the list. -/
def AllResolve (ps : List Creature) : Prop :=
  ∀ p ∈ ps, normName p.evolves_from ≠ [] →
    (nameMap ps (normName p.evolves_from)).isSome = true

/-- One step of the resolver's walk: looking `a` up in the name map yields a
record whose normalized `evolves_from` is the non-empty `b`. -/
def walkStep (ps : List Creature) (a b : Str) : Prop :=
  ∃ c, nameMap ps a = some c ∧ normName c.evolves_from = b ∧ b ≠ []

/-- `r` is the true root ancestor of `n`: reachable from `n` by following
evolves-from links through the name map, with no further link to follow. -/
def IsRoot (ps : List Creature) (n r : Str) : Prop :=
  Relation.ReflTransGen (walkStep ps) n r ∧ ∀ b, ¬ walkStep ps r b

end CardDocs

namespace CardDocs

/-! ### Resolver lemmas -/

theorem nameMap_mem {ps : List Creature} {k : Str} {c : Creature}
    (h : nameMap ps k = some c) :
    c ∈ ps ∧ truthyOpt c.name = true ∧ normName c.name = k := by
  rw [nameMap] at h
  induction ps using List.reverseRecOn with
  | nil => simp at h
  | append_singleton ps p ih =>
    rw [List.foldl_append, List.foldl_cons, List.foldl_nil] at h
    by_cases hp : truthyOpt p.name = true ∧ normName p.name = k
    · rw [if_pos hp] at h
      cases h
      exact ⟨List.mem_append_right _ (List.mem_singleton_self _), hp.1, hp.2⟩
    · rw [if_neg hp] at h
      obtain ⟨h1, h2, h3⟩ := ih h
      exact ⟨List.mem_append_left _ h1, h2, h3⟩

theorem walkStep_rawLink {ps : List Creature} {a b : Str} (h : walkStep ps a b) :
    rawLink ps a b := by
  obtain ⟨c, hc, hef, hb⟩ := h
  obtain ⟨hmem, _, hname⟩ := nameMap_mem hc
  exact ⟨c, hmem, hname, hef, hb⟩

theorem transGen_walk_of_raw {ps : List Creature} {a b : Str}
    (h : Relation.TransGen (walkStep ps) a b) : Relation.TransGen (rawLink ps) a b := by
  induction h with
  | single h1 => exact Relation.TransGen.single (walkStep_rawLink h1)
  | tail _ h2 ih => exact Relation.TransGen.tail ih (walkStep_rawLink h2)

/-- Names with a record, each listed once. -/
def keyList (ps : List Creature) : List Str :=
  ((ps.filter (fun p => truthyOpt p.name)).map (fun p => normName p.name)).dedup

theorem nameMap_key_mem {ps : List Creature} {k : Str} {c : Creature}
    (h : nameMap ps k = some c) : k ∈ keyList ps := by
  obtain ⟨h1, h2, h3⟩ := nameMap_mem h
  rw [keyList, List.mem_dedup, List.mem_map]
  exact ⟨c, List.mem_filter.mpr ⟨h1, h2⟩, h3⟩

theorem keyList_length_le (ps : List Creature) : (keyList ps).length ≤ ps.length := by
  calc (keyList ps).length
      ≤ ((ps.filter (fun p => truthyOpt p.name)).map (fun p => normName p.name)).length :=
        (List.dedup_sublist _).length_le
    _ = (ps.filter (fun p => truthyOpt p.name)).length := List.length_map _ _
    _ ≤ ps.length := List.length_filter_le _ _

/-- Striking a fresh member out of the not-yet-seen keys shrinks them. -/
theorem filter_out_lt {l seen : List Str} {a : Str} (ha : a ∈ l) (hns : a ∉ seen) :
    (l.filter (fun k => k ∉ a :: seen)).length < (l.filter (fun k => k ∉ seen)).length := by
  induction l with
  | nil => simp at ha
  | cons x l ih =>
    by_cases hx : x = a
    · subst hx
      rw [List.filter_cons, List.filter_cons]
      have h1 : (decide (x ∉ x :: seen)) = false := by simp
      have h2 : (decide (x ∉ seen)) = true := by simpa using hns
      rw [h1, h2]
      have mono : (l.filter (fun k => k ∉ x :: seen)).length ≤
          (l.filter (fun k => k ∉ seen)).length := by
        have := List.countP_mono_left
          (p := fun k => decide (k ∉ x :: seen)) (q := fun k => decide (k ∉ seen)) (l := l)
          (fun b _ hb => by
            simp only [decide_eq_true_eq, List.mem_cons, not_or] at hb ⊢
            exact hb.2)
        simpa [List.countP_eq_length_filter] using this
      simpa using Nat.lt_succ_of_le mono
    · have ha' : a ∈ l := by
        rcases List.mem_cons.mp ha with h | h
        · exact absurd h.symm hx
        · exact h
      rw [List.filter_cons, List.filter_cons]
      have heq : (decide (x ∉ a :: seen)) = (decide (x ∉ seen)) := by
        rw [decide_eq_decide]
        simp only [List.mem_cons, not_or]
        constructor
        · rintro ⟨_, h⟩; exact h
        · intro h; exact ⟨hx, h⟩
      rw [heq]
      by_cases hxs : x ∉ seen
      · have hxs' : (decide (x ∉ seen)) = true := by simpa using hxs
        rw [hxs']
        simpa using Nat.succ_lt_succ (ih ha')
      · have hxs' : (decide (x ∉ seen)) = false := by simpa using hxs
        rw [hxs']
        simpa using ih ha'

/-- With more fuel than there are unseen map keys, the walk completes. -/
theorem findBaseAux_completes (ps : List Creature) (n : Str) :
    ∀ (fuel : Nat) (seen : List Str) (cur : Str),
      ((keyList ps).filter (fun k => k ∉ seen)).length < fuel →
      (findBaseAux ps n fuel seen cur).isSome = true := by
  intro fuel
  induction fuel with
  | zero => intro seen cur h; exact absurd h (by simp)
  | succ fuel ih =>
    intro seen cur hcount
    rw [findBaseAux]
    by_cases hstop : cur = [] ∨ cur ∈ seen
    · rw [if_pos hstop]; rfl
    · rw [if_neg hstop]
      match hm : nameMap ps cur with
      | none => rfl
      | some card =>
        by_cases hp : normName card.evolves_from = []
        · simp only [hp, if_pos rfl]; rfl
        · simp only [if_neg hp]
          apply ih
          have hk : cur ∈ keyList ps := nameMap_key_mem hm
          have hns : cur ∉ seen := fun h => hstop (Or.inr h)
          have := filter_out_lt hk hns
          omega

theorem findBase_some (ps : List Creature) (n : Str) :
    (findBaseAux ps n (ps.length + 1) [] n).isSome = true := by
  apply findBaseAux_completes
  have h1 : ((keyList ps).filter (fun k => k ∉ ([] : List Str))).length
      ≤ (keyList ps).length := List.length_filter_le _ _
  have h2 := keyList_length_le ps
  omega

/-- Revisiting a name already seen ends the walk with the starting name. -/
theorem findBaseAux_revisit (ps : List Creature) (n : Str) (fuel : Nat)
    (seen : List Str) (cur : Str) (h : cur ∈ seen) :
    findBaseAux ps n (fuel + 1) seen cur = some n := by
  rw [findBaseAux, if_pos (Or.inr h)]

/-- A name with no record ends the walk with the starting name. -/
theorem findBaseAux_absent (ps : List Creature) (n : Str) (fuel : Nat)
    (seen : List Str) (cur : Str) (h : nameMap ps cur = none) :
    findBaseAux ps n (fuel + 1) seen cur = some n := by
  rw [findBaseAux]
  by_cases hstop : cur = [] ∨ cur ∈ seen
  · rw [if_pos hstop]
  · rw [if_neg hstop, h]

/-- Root ancestors are unique: the walk relation is deterministic. -/
theorem isRoot_unique {ps : List Creature} {n r r' : Str}
    (h : IsRoot ps n r) (h' : IsRoot ps n r') : r = r' := by
  obtain ⟨hreach, hterm⟩ := h
  obtain ⟨hreach', hterm'⟩ := h'
  revert hreach'
  induction hreach using Relation.ReflTransGen.head_induction_on with
  | refl =>
    intro hreach'
    cases (Relation.reflTransGen_iff_eq_or_transGen.mp hreach') with
    | inl h => exact h.symm
    | inr h =>
      obtain ⟨b, hb, _⟩ := Relation.TransGen.head'_iff.mp h
      exact absurd hb (hterm b)
  | head step tail ih =>
    rename_i a c
    intro hreach'
    cases (Relation.reflTransGen_iff_eq_or_transGen.mp hreach') with
    | inl h =>
      subst h
      exact absurd step (hterm' c)
    | inr h =>
      obtain ⟨b, hb, hrest⟩ := Relation.TransGen.head'_iff.mp h
      have hcb : c = b := by
        obtain ⟨cc, hc1, hc2, _⟩ := step
        obtain ⟨cc', hc1', hc2', _⟩ := hb
        rw [hc1] at hc1'
        cases hc1'
        rw [← hc2, ← hc2']
      subst hcb
      exact ih hrest

/-- The core invariant proof: along a fresh acyclic walk in which every parent
resolves, the loop returns exactly the true root ancestor of the walk's
current position, which is also a root ancestor of the starting name. -/
theorem findBaseAux_root (ps : List Creature) (n : Str)
    (hacy : Acyclic ps) (hres : AllResolve ps) :
    ∀ (fuel : Nat) (seen : List Str) (cur : Str),
      ((keyList ps).filter (fun k => k ∉ seen)).length < fuel →
      (∀ s ∈ seen, Relation.TransGen (walkStep ps) s cur) →
      Relation.ReflTransGen (walkStep ps) n cur →
      cur ≠ [] →
      (cur = n ∨ (nameMap ps cur).isSome = true) →
      ∃ r, findBaseAux ps n fuel seen cur = some r ∧ IsRoot ps n r := by
  intro fuel
  induction fuel with
  | zero => intro seen cur h; exact absurd h (by simp)
  | succ fuel ih =>
    intro seen cur hcount hseen hreach hne hcase
    have hnotseen : cur ∉ seen := by
      intro hmem
      exact hacy cur (transGen_walk_of_raw (hseen cur hmem))
    rw [findBaseAux, if_neg (by push_neg; exact ⟨hne, hnotseen⟩)]
    match hm : nameMap ps cur with
    | none =>
      have hcn : cur = n := by
        rcases hcase with h | h
        · exact h
        · rw [hm] at h; simp at h
      subst hcn
      refine ⟨cur, rfl, Relation.ReflTransGen.refl, ?_⟩
      rintro b ⟨c, hc, _⟩
      rw [hm] at hc
      cases hc
    | some card =>
      by_cases hp : normName card.evolves_from = []
      · simp only [hp, if_pos rfl]
        refine ⟨cur, rfl, hreach, ?_⟩
        rintro b ⟨c, hc, hef, hb⟩
        rw [hm] at hc
        cases hc
        rw [← hef, hp] at hb
        exact hb rfl
      · simp only [if_neg hp]
        have hstep : walkStep ps cur (normName card.evolves_from) := ⟨card, hm, rfl, hp⟩
        have hmem := (nameMap_mem hm).1
        apply ih (cur :: seen) (normName card.evolves_from)
        · have hk : cur ∈ keyList ps := nameMap_key_mem hm
          have := filter_out_lt hk hnotseen
          omega
        · intro s hs
          rcases List.mem_cons.mp hs with rfl | hs
          · exact Relation.TransGen.single hstep
          · exact Relation.TransGen.tail (hseen s hs) hstep
        · exact Relation.ReflTransGen.tail hreach hstep
        · exact hp
        · exact Or.inr (hres card hmem hp)

/-- `_find_base` computes the unique true root ancestor whenever the links are
acyclic, all parents resolve, and the starting name is non-empty. -/
theorem findBase_isRoot (ps : List Creature) (n : Str)
    (hacy : Acyclic ps) (hres : AllResolve ps) (hne : n ≠ []) :
    IsRoot ps n (findBase ps n) := by
  obtain ⟨r, hr, hroot⟩ := findBaseAux_root ps n hacy hres (ps.length + 1) [] n
    (by
      have h1 : ((keyList ps).filter (fun k => k ∉ ([] : List Str))).length
          ≤ (keyList ps).length := List.length_filter_le _ _
      have h2 := keyList_length_le ps
      omega)
    (by intro s hs; simp at hs)
    Relation.ReflTransGen.refl hne (Or.inl rfl)
  rw [findBase, hr]
  exact hroot

/-- A rank function decreasing along every link rules out cycles. -/
theorem acyclic_of_rank (ps : List Creature) (f : Str → Nat)
    (h : ∀ a b, rawLink ps a b → f a < f b) : Acyclic ps := by
  intro a hcyc
  have mono : ∀ x y, Relation.TransGen (rawLink ps) x y → f x < f y := by
    intro x y hxy
    induction hxy with
    | single h1 => exact h _ _ h1
    | tail _ h2 ih => exact lt_trans ih (h _ _ h2)
  exact lt_irrefl _ (mono a a hcyc)

/-- The `has_children` set contains exactly the non-empty normalized parent
names occurring in the record list. -/
theorem hasChildren_iff (ps : List Creature) (nm : Str) :
    hasChildren ps nm = true ↔
      ∃ p ∈ ps, normName p.evolves_from ≠ [] ∧ normName p.evolves_from = nm := by
  rw [hasChildren, List.any_eq_true]
  constructor
  · rintro ⟨p, hp, hcond⟩
    rw [decide_eq_true_eq] at hcond
    exact ⟨p, hp, hcond⟩
  · rintro ⟨p, hp, hcond⟩
    exact ⟨p, hp, by rw [decide_eq_true_eq]; exact hcond⟩

/-! ### The synergy tag extractor

Each entry of `TAG_RULES` in `document_builder/tags.py` is a regular
expression; `Pat` is the fragment of regex syntax those ten patterns use, and
each pattern below transliterates one rule.  `re.search` is modelled by
`patSearch`: a match exists starting at some position.  `matchEnds l p i`
computes every position at which `p` can finish a match that starts at `i`,
so the model is the full nondeterministic semantics, not one greedy path. -/

inductive Pat where
  | lit (w : Str)
  | ws1
  | digits1
  | wb
  | opt (p : Pat)
  | alt (p q : Pat)
  | seq (p q : Pat)

/-- Regex `\w`, ASCII model (patterns are applied to lowercased text). -/
def wordChar (c : Char) : Bool :=
  ('a' ≤ c && c ≤ 'z') || ('A' ≤ c && c ≤ 'Z') || ('0' ≤ c && c ≤ '9') || c = '_'

/-- Regex `\d`. -/
def digitChar (c : Char) : Bool := '0' ≤ c && c ≤ '9'

/-- The fixed word `w` occurs in `l` starting at position `i`. -/
def subAt (l : Str) (i : Nat) (w : Str) : Bool :=
  decide ((l.drop i).take w.length = w)

/-- Regex `\b` at position `i`: exactly one side of the position is a word
character. -/
def boundaryAt (l : Str) (i : Nat) : Bool :=
  let before := match l[i - 1]? with
    | some c => i ≠ 0 && wordChar c
    | none => false
  let after := match l[i]? with
    | some c => wordChar c
    | none => false
  before ≠ after

/-- All positions at which `p` can finish a match started at `i`. -/
def matchEnds (l : Str) : Pat → Nat → List Nat
  | .lit w, i => if subAt l i w then [i + w.length] else []
  | .ws1, i => (List.range (((l.drop i).takeWhile pyWs).length)).map (fun k => i + k + 1)
  | .digits1, i =>
    (List.range (((l.drop i).takeWhile digitChar).length)).map (fun k => i + k + 1)
  | .wb, i => if boundaryAt l i then [i] else []
  | .opt p, i => i :: matchEnds l p i
  | .alt p q, i => matchEnds l p i ++ matchEnds l q i
  | .seq p q, i => (matchEnds l p i).flatMap (fun j => matchEnds l q j)

/-- `re.search(p, l)`: a match exists starting somewhere in `l`. -/
def patSearch (p : Pat) (l : Str) : Bool :=
  (List.range (l.length + 1)).any (fun i => !(matchEnds l p i).isEmpty)

/-- A literal word pattern. -/
def word (s : String) : Pat := .lit (S s)

/-- `\b(search|look up|reveal)\s+(your\s+)?(deck|discard)\b`. -/
def tutorPat : Pat :=
  .seq .wb (.seq (.alt (word "search") (.alt (word "look up") (word "reveal")))
    (.seq .ws1 (.seq (.opt (.seq (word "your") .ws1))
      (.seq (.alt (word "deck") (word "discard")) .wb))))

/-- `\bdraw\b|\bdraw\s+\d+\s+cards?\b`. -/
def drawPat : Pat :=
  .alt (.seq .wb (.seq (word "draw") .wb))
    (.seq .wb (.seq (word "draw") (.seq .ws1 (.seq .digits1 (.seq .ws1
      (.seq (word "card") (.seq (.opt (word "s")) .wb)))))))

/-- `\battach\s+(an?\s+)?energy\b|\bextra\s+energy\b|\bmore\s+energy\b|\baccelerat(?:e|ion)\b`. -/
def energyPat : Pat :=
  .alt (.seq .wb (.seq (word "attach") (.seq .ws1
      (.seq (.opt (.seq (word "a") (.seq (.opt (word "n")) .ws1)))
        (.seq (word "energy") .wb)))))
    (.alt (.seq .wb (.seq (word "extra") (.seq .ws1 (.seq (word "energy") .wb))))
      (.alt (.seq .wb (.seq (word "more") (.seq .ws1 (.seq (word "energy") .wb))))
        (.seq .wb (.seq (word "accelerat") (.seq (.alt (word "e") (word "ion")) .wb)))))

/-- `\b(heal|remove)\s+(damage|damage\s+counters?)\b`. -/
def healPat : Pat :=
  .seq .wb (.seq (.alt (word "heal") (word "remove")) (.seq .ws1
    (.seq (.alt (word "damage")
        (.seq (word "damage") (.seq .ws1 (.seq (word "counter") (.opt (word "s"))))))
      .wb)))

/-- `\b(switch|swap)\s+(your\s+)?(active|benched)\b`. -/
def switchPat : Pat :=
  .seq .wb (.seq (.alt (word "switch") (word "swap"))
    (.seq .ws1 (.seq (.opt (.seq (word "your") .ws1))
      (.seq (.alt (word "active") (word "benched")) .wb))))

/-- `\b(retreat\s+cost|reduce\s+retreat)\b`. -/
def retreatPat : Pat :=
  .seq .wb (.seq (.alt (.seq (word "retreat") (.seq .ws1 (word "cost")))
      (.seq (word "reduce") (.seq .ws1 (word "retreat")))) .wb)

/-- `\bdiscard\s+(a|an|any|up\s+to|from)\b`. -/
def discardPat : Pat :=
  .seq .wb (.seq (word "discard") (.seq .ws1
    (.seq (.alt (word "a") (.alt (word "an") (.alt (word "any")
        (.alt (.seq (word "up") (.seq .ws1 (word "to"))) (word "from")))))
      .wb)))

/-- `\b(search|attach)\s+(a\s+)?tool\b|\bpokemon\s+tool\b`. -/
def toolPat : Pat :=
  .alt (.seq .wb (.seq (.alt (word "search") (word "attach"))
      (.seq .ws1 (.seq (.opt (.seq (word "a") .ws1)) (.seq (word "tool") .wb)))))
    (.seq .wb (.seq (word "pokemon") (.seq .ws1 (.seq (word "tool") .wb))))

/-- `\b(evolve|evolution)\b`. -/
def evolutionPat : Pat :=
  .seq .wb (.seq (.alt (word "evolve") (word "evolution")) .wb)

/-- `\bresist(s|ance)?\b|\bweakness\b`. -/
def matchupPat : Pat :=
  .alt (.seq .wb (.seq (word "resist") (.seq (.opt (.alt (word "s") (word "ance"))) .wb)))
    (.seq .wb (.seq (word "weakness") .wb))

/-- `TAG_RULES`, in source order. -/
def TAG_RULES : List (Pat × Str) :=
  [(tutorPat, S "tutor"),
   (drawPat, S "draw"),
   (energyPat, S "energy_accel"),
   (healPat, S "heal"),
   (switchPat, S "switch"),
   (retreatPat, S "retreat_reduction"),
   (discardPat, S "discard"),
   (toolPat, S "tool_synergy"),
   (evolutionPat, S "evolution"),
   (matchupPat, S "type_matchup")]

/-- `TYPE_WORDS`. -/
def TYPE_WORDS : List (Str × List Str) :=
  [(S "Grass", [S "grass", S "leaf", S "plants"]),
   (S "Fire", [S "fire", S "flame", S "burn"]),
   (S "Water", [S "water", S "aqua", S "rain"]),
   (S "Lightning", [S "lightning", S "electric", S "spark"]),
   (S "Psychic", [S "psychic", S "mind", S "psi"]),
   (S "Fighting", [S "fighting", S "punch", S "kick"]),
   (S "Darkness", [S "dark", S "shadow"]),
   (S "Metal", [S "metal", S "steel"]),
   (S "Fairy", [S "fairy"]),
   (S "Dragon", [S "dragon"]),
   (S "Colorless", [S "colorless", S "neutral"])]

/-- `TYPE_WORDS.get(t, [])`. -/
def typeWords (t : Str) : List Str :=
  ((TYPE_WORDS.find? (fun kv => kv.1 = t)).map (fun kv => kv.2)).getD []

/-- The fixed word `w` occurs somewhere in `l` (Python `w in l`). -/
def containsSub (l w : Str) : Bool :=
  (List.range (l.length + 1)).any (fun i => subAt l i w)

/-- Lexicographic comparison of strings by character code, Python's `<`. -/
def strLt : Str → Str → Bool
  | [], [] => false
  | [], _ :: _ => true
  | _ :: _, [] => false
  | a :: as, b :: bs => if a < b then true else if b < a then false else strLt as bs

/-- `extract_synergy_tags`: lowercase once, fire every matching rule, add the
type tags, return the set as a sorted list. -/
def extract_synergy_tags (text : Str) (types : Option (List Str)) : List Str :=
  let textL := pyLower text
  let ruleTags := (TAG_RULES.filter (fun r => patSearch r.1 textL)).map (fun r => r.2)
  let typeTags := match types with
    | none => []
    | some ts => ts.flatMap (fun t =>
        (S "type:" ++ t) ::
          (if (typeWords t).any (fun a => containsSub textL a) then [S "type_kw:" ++ t]
           else []))
  ((ruleTags ++ typeTags).dedup).mergeSort (fun a b => !strLt b a)

/-! ### Rendering helpers shared by the builder and `json.dumps` -/

/-- Decimal digit characters of `n`, most significant first. -/
def natChars (n : Nat) : Str :=
  if _h : n < 10 then [Char.ofNat ('0'.toNat + n)]
  else natChars (n / 10) ++ [Char.ofNat ('0'.toNat + n % 10)]
decreasing_by exact Nat.div_lt_self (by omega) (by omega)

/-- Decimal rendering of an integer, optional minus sign first. -/
def intChars (i : Int) : Str :=
  (if i < 0 then ['-'] else []) ++ natChars i.natAbs

mutual

/-- Python `repr` of a JSON-shaped value, ASCII model (the exact model is only
relied on for scalars; containers never occur inside rendered fields in the
repository's data). -/
def pyRepr : JVal → Str
  | .null => S "None"
  | .boolean true => S "True"
  | .boolean false => S "False"
  | .num n => intChars n
  | .str s => '\'' :: (s ++ ['\''])
  | .arr xs => '[' :: (pyReprItems xs ++ [']'])
  | .obj fs => '{' :: (pyReprPairs fs ++ ['}'])

/-- `repr` of list items, comma-separated. -/
def pyReprItems : List JVal → Str
  | [] => []
  | [x] => pyRepr x
  | x :: y :: t => pyRepr x ++ S ", " ++ pyReprItems (y :: t)

/-- `repr` of dict items, comma-separated. -/
def pyReprPairs : List (Str × JVal) → Str
  | [] => []
  | [(k, v)] => pyRepr (.str k) ++ S ": " ++ pyRepr v
  | (k, v) :: y :: t => pyRepr (.str k) ++ S ": " ++ pyRepr v ++ S ", " ++ pyReprPairs (y :: t)

end

/-- Python `str()` of a JSON-shaped value: like `repr` except that strings
print verbatim. -/
def pyStr : JVal → Str
  | .str s => s
  | v => pyRepr v

/-- `_join_list`: `" | ".join(map(str, values))` for a list, `str(values)`
otherwise. -/
def joinList : JVal → Str
  | .arr xs => ((xs.map pyStr).intersperse (S " | ")).flatten
  | v => pyStr v

/-- `"\n".join(lines)` and friends. -/
def joinWith (sep : Str) (lines : List Str) : Str :=
  (lines.intersperse sep).flatten

/-! ### The document builder -/

/-- A stored document `{"doc_id", "text", "metadata"}`.  All three fields are
JSON values: the builder always produces strings and a dict, but
`load_jsonl` stores whatever the line held. -/
structure StoredDoc where
  doc_id : JVal
  text : JVal
  metadata : JVal

/-- A supporter/item/tool record. -/
structure EffectCard where
  name : Option Str
  effect : Option Str

/-- One parsed expansion file: the four optional sections (`or []` applied). -/
structure Expansion where
  pokemon : List Creature
  supporters : List EffectCard
  items : List EffectCard
  tools : List EffectCard

/-- `_STAGE_TIER`. -/
def STAGE_TIER : List (Str × Int) :=
  [(S "basic", 0), (S "stage 1", 1), (S "stage1", 1), (S "stage-1", 1),
   (S "stage 2", 2), (S "stage2", 2), (S "stage-2", 2)]

/-- `_STAGE_TIER.get(key, None)`. -/
def stageTier (key : Str) : Option Int :=
  (STAGE_TIER.find? (fun kv => kv.1 = key)).map (fun kv => kv.2)

/-- `x or d` for an optional string: the default replaces `None` and `""`. -/
def orDefault (o : Option Str) (d : Str) : Str :=
  match o with
  | some s => if s = [] then d else s
  | none => d

/-- The `card.get(k) not in (None, "", [])` test on an optional string field. -/
def presentStr : Option Str → Bool
  | none => false
  | some s => !s.isEmpty

/-- The `card.get(k) not in (None, "", [])` test on an optional JSON field:
everything except `None`, the empty string and the empty list passes (note a
numeric `0` passes). -/
def presentJ : Option JVal → Bool
  | none => false
  | some .null => false
  | some (.str s) => !s.isEmpty
  | some (.arr xs) => !xs.isEmpty
  | some _ => true

/-- The `"damage" in atk and atk["damage"] not in (None, "")` test: the key is
present and the value is neither `None` nor `""` (a numeric `0` passes). -/
def damageRenderable : Option JVal → Bool
  | none => false
  | some .null => false
  | some (.str s) => !s.isEmpty
  | some _ => true

/-- `(atk.get("name") or "attack").strip()`. -/
def attackDisplayName (a : Attack) : Str :=
  pyStrip (orDefault a.name (S "attack"))

/-- The canonical-text lines contributed by one attack: cost line when the
cost is truthy, damage line when present and non-empty, effect line when
truthy. -/
def attackLines (a : Attack) : List Str :=
  (match a.cost with
   | some v => if jTruthy v then [S "attack." ++ attackDisplayName a ++ S ".cost: " ++ joinList v] else []
   | none => []) ++
  (if damageRenderable a.damage then
    [S "attack." ++ attackDisplayName a ++ S ".damage: " ++
      pyStr ((a.damage).getD .null)]
   else []) ++
  (match a.effect with
   | some s => if s ≠ [] then [S "attack." ++ attackDisplayName a ++ S ".effect: " ++ s] else []
   | none => [])

/-- The effect text one attack contributes to the synergy-tag input (only
attacks with a truthy effect contribute). -/
def attackEffectTexts (a : Attack) : List Str :=
  match a.effect with
  | some s => if s ≠ [] then [s] else []
  | none => []

/-- The canonical-text lines contributed by one ability entry. -/
def abilityLines : Ability → List Str
  | .named items => items.map (fun kv => S "ability." ++ kv.1 ++ S ": " ++ kv.2)
  | .plain s => [S "ability: " ++ s]

/-- The texts one ability entry contributes to the synergy-tag input. -/
def abilityTexts : Ability → List Str
  | .named items => items.map (fun kv => kv.2)
  | .plain s => [s]

/-- The canonical text lines of `_pokemon_to_doc`, in source order. -/
def pokemonLines (card : Creature) (expansion : Str) : List Str :=
  let name := normName (some (orDefault card.name (S "UNKNOWN")))
  [S "card: " ++ name, S "type: pokemon", S "expansion: " ++ expansion] ++
  (if presentStr card.stage then [S "stage: " ++ (card.stage).getD []] else []) ++
  (if presentJ card.hp then [S "hp: " ++ joinList ((card.hp).getD .null)] else []) ++
  (if presentJ card.retreat then [S "retreat: " ++ joinList ((card.retreat).getD .null)] else []) ++
  (if presentStr card.evolves_from then [S "evolves_from: " ++ (card.evolves_from).getD []] else []) ++
  (if presentJ card.weakness then [S "weakness: " ++ joinList ((card.weakness).getD .null)] else []) ++
  (if !card.types.isEmpty then [S "types: " ++ joinWith (S " | ") card.types] else []) ++
  (card.abilities.flatMap abilityLines) ++
  (card.attacks.flatMap attackLines)

/-- The synergy-tag input of `_pokemon_to_doc`: ability texts then attack
effect texts, newline-joined. -/
def pokemonTagText (card : Creature) : Str :=
  joinWith (S "\n")
    (card.abilities.flatMap abilityTexts ++ card.attacks.flatMap attackEffectTexts)

/-- `_pokemon_to_doc`, with the enrichment hints `_evolution_base` and
`_has_children` passed explicitly, and the `uuid4` document id passed as
`uid`. -/
def pokemonToDoc (computeTags : Bool) (uid : Str) (card : Creature)
    (ebase : Str) (hasKids : Bool) (expansion : Str) : StoredDoc :=
  let name := normName (some (orDefault card.name (S "UNKNOWN")))
  let stage := normName card.stage
  let evolves_from := normName card.evolves_from
  let tags := if computeTags then
      extract_synergy_tags (pokemonTagText card)
        (if card.types.isEmpty then none else some card.types)
    else []
  let evolution_base := if ebase = [] then name else ebase
  { doc_id := .str uid,
    text := .str (joinWith (S "\n") (pokemonLines card expansion)),
    metadata := .obj
      [(S "doc_type", .str (S "card")),
       (S "card_type", .str (S "pokemon")),
       (S "name", .str name),
       (S "name_slug", .str (slug name)),
       (S "expansion", .str expansion),
       (S "types", .arr (card.types.map .str)),
       (S "stage", .str stage),
       (S "stage_tier", match stageTier (pyLower stage) with
         | some t => .num t
         | none => .null),
       (S "evolves_from", .str evolves_from),
       (S "evolves_from_slug", .str (if evolves_from = [] then [] else slug evolves_from)),
       (S "evolution_base", .str evolution_base),
       (S "evolution_base_slug", .str (slug evolution_base)),
       (S "has_evolutions", .boolean hasKids),
       (S "synergy_tags", .arr (tags.map .str))] }

/-- `card.get("effect") or ""`. -/
def orEmpty (o : Option Str) : Str := o.getD []

/-- `_named_effect_to_doc`. -/
def namedEffectToDoc (computeTags : Bool) (uid : Str) (card : EffectCard)
    (expansion : Str) (sec : Str) : StoredDoc :=
  let name := pyStrip (orDefault card.name (S "UNKNOWN"))
  let effect := orEmpty card.effect
  let tags := if computeTags then extract_synergy_tags effect none else []
  { doc_id := .str uid,
    text := .str (joinWith (S "\n")
      ([S "card: " ++ name, S "type: " ++ sec, S "expansion: " ++ expansion] ++
        (if effect ≠ [] then [S "effect: " ++ effect] else []))),
    metadata := .obj
      [(S "doc_type", .str (S "card")),
       (S "card_type", .str sec),
       (S "name", .str name),
       (S "expansion", .str expansion),
       (S "synergy_tags", .arr (tags.map .str))] }

/-- `_text_to_doc` for guides. -/
def textToDoc (uid : Str) (text : Str) (name : Str) : StoredDoc :=
  { doc_id := .str uid,
    text := .str text,
    metadata := .obj [(S "doc_type", .str (S "guide")), (S "name", .str name)] }

/-- `_expansion_to_docs`: resolve evolution data over the whole `pokemon`
list, then emit one document per creature followed by supporters, items and
tools.  The `uuid4` ids are modelled by the injected supply `fresh`, indexed
by emission position. -/
def expansionToDocs (computeTags : Bool) (fresh : Nat → Str) (e : Expansion)
    (ename : Str) : List StoredDoc :=
  let ps := e.pokemon
  let builders : List (Str → StoredDoc) :=
    ps.map (fun p uid =>
      let nm := normName p.name
      pokemonToDoc computeTags uid p (findBase ps nm) (hasChildren ps nm) ename) ++
    e.supporters.map (fun c uid => namedEffectToDoc computeTags uid c ename (S "supporters")) ++
    e.items.map (fun c uid => namedEffectToDoc computeTags uid c ename (S "items")) ++
    e.tools.map (fun c uid => namedEffectToDoc computeTags uid c ename (S "tools"))
  builders.mapIdx (fun i b => b (fresh i))

/-! ### `json.dumps` (compact `ensure_ascii=False`, default separators) -/

/-- A lowercase hex digit. -/
def hexDigit (n : Nat) : Char :=
  if n < 10 then Char.ofNat ('0'.toNat + n) else Char.ofNat ('a'.toNat + (n - 10))

/-- JSON string escaping of one character: the two-character shortcuts, the
`\u00XX` form for remaining control characters, everything else verbatim. -/
def escChar (c : Char) : Str :=
  if c = '"' then ['\\', '"']
  else if c = '\\' then ['\\', '\\']
  else if c = '\n' then ['\\', 'n']
  else if c = '\t' then ['\\', 't']
  else if c = '\r' then ['\\', 'r']
  else if c = '\x08' then ['\\', 'b']
  else if c = '\x0c' then ['\\', 'f']
  else if c.toNat < 0x20 then
    ['\\', 'u', '0', '0', hexDigit (c.toNat / 16), hexDigit (c.toNat % 16)]
  else [c]

/-- Escape a whole string body. -/
def escStr (s : Str) : Str := s.flatMap escChar

mutual

/-- `json.dumps` with the default separators `", "` and `": "`. -/
def dumps : JVal → Str
  | .null => S "null"
  | .boolean true => S "true"
  | .boolean false => S "false"
  | .num n => intChars n
  | .str s => '"' :: (escStr s ++ ['"'])
  | .arr xs => '[' :: (dumpsItems xs ++ [']'])
  | .obj fs => '{' :: (dumpsFields fs ++ ['}'])

/-- Array elements, `", "`-separated. -/
def dumpsItems : List JVal → Str
  | [] => []
  | [x] => dumps x
  | x :: y :: t => dumps x ++ (S ", " ++ dumpsItems (y :: t))

/-- Object members, `", "`-separated, each `"key": value`. -/
def dumpsFields : List (Str × JVal) → Str
  | [] => []
  | [(k, v)] => '"' :: (escStr k ++ ('"' :: (S ": " ++ dumps v)))
  | (k, v) :: y :: t =>
    '"' :: (escStr k ++ ('"' :: (S ": " ++ (dumps v ++ (S ", " ++ dumpsFields (y :: t))))))

end

/-! ### `json.loads` -/

/-- JSON inter-token whitespace. -/
def jsonWs (c : Char) : Bool := c = ' ' || c = '\t' || c = '\n' || c = '\r'

/-- Skip inter-token whitespace. -/
def skipWs (l : Str) : Str := l.dropWhile jsonWs

/-- The value of one hex digit, read off the character code: the digit range
48-57, the lowercase range 97-102, the uppercase range 65-70. -/
def hexValue (c : Char) : Option Nat :=
  let n := c.toNat
  if 48 ≤ n && n ≤ 57 then some (n - 48)
  else if 97 ≤ n && n ≤ 102 then some (n - 87)
  else if 65 ≤ n && n ≤ 70 then some (n - 55)
  else none

/-- The single-character escapes. -/
def unescChar : Char → Option Char
  | 'n' => some '\n'
  | 't' => some '\t'
  | 'r' => some '\r'
  | 'b' => some '\x08'
  | 'f' => some '\x0c'
  | '"' => some '"'
  | '\\' => some '\\'
  | '/' => some '/'
  | _ => none

/-- The value of a four-digit hex escape. -/
def hex4 (a b c d : Char) : Option Nat :=
  match hexValue a, hexValue b, hexValue c, hexValue d with
  | some va, some vb, some vc, some vd => some (((va * 16 + vb) * 16 + vc) * 16 + vd)
  | _, _, _, _ => none

/-- Parse a string body up to (and consuming) the closing quote. -/
def parseStrBody : Str → Option (Str × Str)
  | [] => none
  | '"' :: r => some ([], r)
  | '\\' :: 'u' :: a :: b :: c :: d :: r =>
    match hex4 a b c d with
    | some n => (parseStrBody r).map (fun sr => (Char.ofNat n :: sr.1, sr.2))
    | none => none
  | '\\' :: e :: r =>
    match unescChar e with
    | some ch => (parseStrBody r).map (fun sr => (ch :: sr.1, sr.2))
    | none => none
  | c :: r => (parseStrBody r).map (fun sr => (c :: sr.1, sr.2))

/-- Parse a nonempty digit run to its value. -/
def parseNat (l : Str) : Option (Nat × Str) :=
  let ds := l.takeWhile digitChar
  if ds.isEmpty then none
  else some (ds.foldl (fun a c => 10 * a + (c.toNat - '0'.toNat)) 0, l.dropWhile digitChar)

/-- Parse an integer token; reject a following `.`/`e`/`E` (floats are outside
the model; the repository's data has none). -/
def parseIntTok (l : Str) : Option (Int × Str) :=
  (match l with
   | [] => none
   | c :: r =>
     if c = '-' then (parseNat r).map (fun nr : Nat × Str => (-(nr.1 : Int), nr.2))
     else (parseNat (c :: r)).map (fun nr : Nat × Str => ((nr.1 : Int), nr.2))).bind
    (fun nr : Int × Str =>
      match nr.2 with
      | c :: _ => if c = '.' || c = 'e' || c = 'E' then none else some nr
      | [] => some nr)

mutual

/-- Parse one JSON value (fuel-indexed; one unit per recursive descent). -/
def parseVal : Nat → Str → Option (JVal × Str)
  | 0, _ => none
  | fuel + 1, l =>
    match skipWs l with
    | 'n' :: 'u' :: 'l' :: 'l' :: r => some (.null, r)
    | 't' :: 'r' :: 'u' :: 'e' :: r => some (.boolean true, r)
    | 'f' :: 'a' :: 'l' :: 's' :: 'e' :: r => some (.boolean false, r)
    | '"' :: r => (parseStrBody r).map (fun sr => (.str sr.1, sr.2))
    | '[' :: r =>
      (match skipWs r with
       | ']' :: r2 => some (.arr [], r2)
       | r2 => (parseItems fuel r2).map (fun xr => (.arr xr.1, xr.2)))
    | '{' :: r =>
      (match skipWs r with
       | '}' :: r2 => some (.obj [], r2)
       | r2 => (parseFields fuel r2).map (fun fr => (.obj fr.1, fr.2)))
    | c :: r =>
      if c = '-' || digitChar c then (parseIntTok (c :: r)).map (fun nr => (.num nr.1, nr.2))
      else none
    | [] => none

/-- Parse one or more comma-separated array elements and the closing `]`. -/
def parseItems : Nat → Str → Option (List JVal × Str)
  | 0, _ => none
  | fuel + 1, l =>
    (parseVal fuel l).bind (fun vr =>
      match skipWs vr.2 with
      | ',' :: r2 => (parseItems fuel r2).map (fun xr => (vr.1 :: xr.1, xr.2))
      | ']' :: r2 => some ([vr.1], r2)
      | _ => none)

/-- Parse one or more comma-separated object members and the closing `}`. -/
def parseFields : Nat → Str → Option (List (Str × JVal) × Str)
  | 0, _ => none
  | fuel + 1, l =>
    match skipWs l with
    | '"' :: r =>
      (parseStrBody r).bind (fun kr =>
        match skipWs kr.2 with
        | ':' :: r2 =>
          (parseVal fuel r2).bind (fun vr =>
            match skipWs vr.2 with
            | ',' :: r4 => (parseFields fuel r4).map (fun fr => ((kr.1, vr.1) :: fr.1, fr.2))
            | '}' :: r4 => some ([(kr.1, vr.1)], r4)
            | _ => none)
        | _ => none)
    | _ => none

end

/-- `json.loads` of a whole line: one value, then only whitespace. -/
def loads (l : Str) : Option JVal :=
  match parseVal (l.length + 1) l with
  | some vr => if (skipWs vr.2).isEmpty then some vr.1 else none
  | none => none

/-! ### JSONL persistence (`save_jsonl` / `load_jsonl`) -/

/-- `d.to_json()`. -/
def StoredDoc.toJson (d : StoredDoc) : JVal :=
  .obj [(S "doc_id", d.doc_id), (S "text", d.text), (S "metadata", d.metadata)]

/-- `save_jsonl`: one compact JSON object per line, newline-terminated. -/
def saveJsonl (docs : List StoredDoc) : Str :=
  (docs.map (fun d => dumps d.toJson ++ ['\n'])).flatten

/-- Split file content into lines (line terminators removed; a trailing
newline produces no extra line, matching Python file iteration). -/
def splitLines : Str → List Str
  | [] => []
  | c :: t =>
    if c = '\n' then [] :: splitLines t
    else
      match splitLines t with
      | [] => [[c]]
      | a :: rest => (c :: a) :: rest

/-- The line loop of `load_jsonl`: skip blank lines; parse each other line;
a missing `"text"` key or an unparsable line aborts the whole load (the
Python exception); missing `"doc_id"` is replaced by the next fresh id and a
missing `"metadata"` by the empty dict.  `fresh` injects the `uuid4` supply,
advanced once per processed line (Python evaluates the `get` default
eagerly). -/
def loadLinesGo (fresh : Nat → Str) : List Str → Nat → Option (List StoredDoc)
  | [], _ => some []
  | line :: rest, k =>
    if (pyStrip line).isEmpty then loadLinesGo fresh rest k
    else
      match loads line with
      | some (.obj fs) =>
        match getField fs (S "text") with
        | some tv =>
          (loadLinesGo fresh rest (k + 1)).map
            (fun ds =>
              { doc_id := (getField fs (S "doc_id")).getD (.str (fresh k)),
                text := tv,
                metadata := (getField fs (S "metadata")).getD (.obj []) } :: ds)
        | none => none
      | _ => none

/-- `load_jsonl` over file content. -/
def loadJsonl (fresh : Nat → Str) (file : Str) : Option (List StoredDoc) :=
  loadLinesGo fresh (splitLines file) 0

/-! ### Round-trip: strings -/

theorem hexValue_hexDigit {k : Nat} (h : k < 16) : hexValue (hexDigit k) = some k := by
  interval_cases k <;> decide

theorem hex4_digits {hi lo : Nat} (hhi : hi < 16) (hlo : lo < 16) :
    hex4 '0' '0' (hexDigit hi) (hexDigit lo) = some (16 * hi + lo) := by
  have h0 : hexValue '0' = some 0 := by decide
  rw [hex4, h0, hexValue_hexDigit hhi, hexValue_hexDigit hlo]
  show some (((0 * 16 + 0) * 16 + hi) * 16 + lo) = some (16 * hi + lo)
  congr 1
  omega

theorem parseStrBody_escChar (c : Char) (w : Str) :
    parseStrBody (escChar c ++ w) = (parseStrBody w).map (fun sr => (c :: sr.1, sr.2)) := by
  by_cases h1 : c = '"'
  · subst h1; rfl
  by_cases h2 : c = '\\'
  · subst h2; rfl
  by_cases h3 : c = '\n'
  · subst h3; rfl
  by_cases h4 : c = '\t'
  · subst h4; rfl
  by_cases h5 : c = '\r'
  · subst h5; rfl
  by_cases h6 : c = '\x08'
  · subst h6; rfl
  by_cases h7 : c = '\x0c'
  · subst h7; rfl
  by_cases h8 : c.toNat < 0x20
  · rw [escChar]
    simp only [h1, h2, h3, h4, h5, h6, h7, if_neg, if_false, if_pos h8]
    have hlo : c.toNat % 16 < 16 := Nat.mod_lt _ (by omega)
    have hhi : c.toNat / 16 < 16 := by omega
    rw [List.cons_append, List.cons_append, List.cons_append, List.cons_append,
      List.cons_append, List.cons_append, List.nil_append, parseStrBody]
    rw [hex4_digits hhi hlo]
    have harith : 16 * (c.toNat / 16) + c.toNat % 16 = c.toNat := by omega
    rw [harith]
    show Option.map (fun sr => (Char.ofNat c.toNat :: sr.1, sr.2)) (parseStrBody w)
      = Option.map (fun sr => (c :: sr.1, sr.2)) (parseStrBody w)
    rw [Char.ofNat_toNat]
  · rw [escChar]
    simp only [h1, h2, h3, h4, h5, h6, h7, h8, if_neg, if_false]
    rw [List.cons_append, List.nil_append, parseStrBody.eq_def]
    have h2' : c ≠ '\\' := h2
    simp [h1, h2']

theorem parseStrBody_escStr (s : Str) : ∀ (w : Str),
    parseStrBody (escStr s ++ '"' :: w) = some (s, w) := by
  induction s with
  | nil => intro w; rfl
  | cons c t ih =>
    intro w
    show parseStrBody ((c :: t).flatMap escChar ++ '"' :: w) = _
    rw [List.flatMap_cons, List.append_assoc, parseStrBody_escChar]
    rw [show (t.flatMap escChar : Str) = escStr t from rfl, ih w]
    rfl

/-! ### Round-trip: numbers -/

theorem natChars_digits (n : Nat) : ∀ c ∈ natChars n, digitChar c = true := by
  induction n using Nat.strong_induction_on with
  | _ n ih =>
    rw [natChars]
    by_cases h : n < 10
    · simp only [dif_pos h, List.mem_singleton]
      rintro c rfl
      interval_cases n <;> decide
    · simp only [dif_neg h]
      intro c hc
      rcases List.mem_append.mp hc with hc | hc
      · exact ih (n / 10) (Nat.div_lt_self (by omega) (by omega)) c hc
      · rw [List.mem_singleton] at hc
        subst hc
        have h10 : n % 10 < 10 := Nat.mod_lt _ (by omega)
        interval_cases h77 : n % 10 <;> simp_all <;> decide

theorem natChars_ne_nil (n : Nat) : natChars n ≠ [] := by
  rw [natChars]
  by_cases h : n < 10
  · simp [dif_pos h]
  · simp [dif_neg h]

/-- The digit-character value round-trip for a single digit. -/
theorem digit_value {k : Nat} (h : k < 10) :
    (Char.ofNat ('0'.toNat + k)).toNat - '0'.toNat = k := by
  interval_cases k <;> decide

theorem foldl_natChars (n : Nat) :
    (natChars n).foldl (fun a c => 10 * a + (c.toNat - '0'.toNat)) 0 = n := by
  induction n using Nat.strong_induction_on with
  | _ n ih =>
    rw [natChars]
    by_cases h : n < 10
    · simp only [dif_pos h, List.foldl_cons, List.foldl_nil]
      rw [digit_value h]
      omega
    · simp only [dif_neg h, List.foldl_append, List.foldl_cons, List.foldl_nil]
      rw [ih (n / 10) (Nat.div_lt_self (by omega) (by omega)), digit_value (Nat.mod_lt _ (by omega))]
      omega

theorem takeWhile_append_all {p : Char → Bool} :
    ∀ (ds w : Str), (∀ c ∈ ds, p c = true) →
      (ds ++ w).takeWhile p = ds ++ w.takeWhile p
  | [], w, _ => rfl
  | c :: t, w, h => by
    rw [List.cons_append, List.takeWhile_cons, if_pos (h c (List.mem_cons_self c t))]
    rw [takeWhile_append_all t w (fun x hx => h x (List.mem_cons_of_mem c hx)), List.cons_append]

theorem dropWhile_append_all {p : Char → Bool} :
    ∀ (ds w : Str), (∀ c ∈ ds, p c = true) →
      (ds ++ w).dropWhile p = w.dropWhile p
  | [], _, _ => rfl
  | c :: t, w, h => by
    rw [List.cons_append, List.dropWhile_cons, if_pos (h c (List.mem_cons_self c t))]
    exact dropWhile_append_all t w (fun x hx => h x (List.mem_cons_of_mem c hx))

/-- The remainder cannot continue a number: empty or headed by something that
is no digit and none of `.`, `e`, `E`. -/
def numDelim : Str → Bool
  | [] => true
  | c :: _ => !(digitChar c || c = '.' || c = 'e' || c = 'E')

theorem takeWhile_stop {p : Char → Bool} {w : Str}
    (h : ∀ c t, w = c :: t → p c = false) :
    w.takeWhile p = [] ∧ w.dropWhile p = w := by
  cases w with
  | nil => exact ⟨rfl, rfl⟩
  | cons c t =>
    rw [List.takeWhile_cons, List.dropWhile_cons, h c t rfl]
    simp

theorem numDelim_head {w : Str} (h : numDelim w = true) :
    ∀ c t, w = c :: t → digitChar c = false ∧ c ≠ '.' ∧ c ≠ 'e' ∧ c ≠ 'E' := by
  rintro c t rfl
  rw [numDelim] at h
  simp only [Bool.not_eq_eq_eq_not, Bool.not_true, Bool.or_eq_false_iff,
    decide_eq_false_iff_not] at h
  exact ⟨h.1.1.1, h.1.1.2, h.1.2, h.2⟩

theorem parseNat_natChars (n : Nat) (w : Str) (hw : numDelim w = true) :
    parseNat (natChars n ++ w) = some (n, w) := by
  have hstop := takeWhile_stop (p := digitChar)
    (fun c t ht => ((numDelim_head hw) c t ht).1)
  rw [parseNat]
  rw [takeWhile_append_all _ _ (natChars_digits n), hstop.1, List.append_nil]
  rw [if_neg (by simpa using natChars_ne_nil n)]
  rw [dropWhile_append_all _ _ (natChars_digits n), hstop.2, foldl_natChars]

theorem parseIntTok_intChars (i : Int) (w : Str) (hw : numDelim w = true) :
    parseIntTok (intChars i ++ w) = some (i, w) := by
  have hTail : ∀ (j : Int), (Option.some ((j : Int), w)).bind
      (fun nr : Int × Str =>
        match nr.2 with
        | c :: _ => if c = '.' || c = 'e' || c = 'E' then none else some nr
        | [] => some nr) = some (j, w) := by
    intro j
    cases w with
    | nil => rfl
    | cons c t =>
      obtain ⟨_, h2, h3, h4⟩ := numDelim_head hw c t rfl
      simp [h2, h3, h4]
  by_cases hi : i < 0
  · have harg : intChars i ++ w = '-' :: (natChars i.natAbs ++ w) := by
      rw [intChars, if_pos hi]; simp
    rw [harg, parseIntTok, if_pos rfl, parseNat_natChars _ _ hw]
    have hval : -(i.natAbs : Int) = i := by omega
    show (Option.some ((-(i.natAbs : Int)), w)).bind
      (fun nr : Int × Str =>
        match nr.2 with
        | c :: _ => if c = '.' || c = 'e' || c = 'E' then none else some nr
        | [] => some nr) = some (i, w)
    rw [hval]
    exact hTail i
  · obtain ⟨c, t, hct⟩ : ∃ c t, natChars i.natAbs = c :: t := by
      match h : natChars i.natAbs with
      | [] => exact absurd h (natChars_ne_nil _)
      | c :: t => exact ⟨c, t, rfl⟩
    have hcd : digitChar c = true := natChars_digits _ c (hct ▸ List.mem_cons_self c t)
    have hcm : c ≠ '-' := by intro h; rw [h] at hcd; exact absurd hcd (by decide)
    have harg : intChars i ++ w = c :: (t ++ w) := by
      rw [intChars, if_neg hi]; simp [hct]
    have hpn : parseNat (c :: (t ++ w)) = some (i.natAbs, w) := by
      have := parseNat_natChars i.natAbs w hw
      rwa [hct, List.cons_append] at this
    rw [harg, parseIntTok, if_neg hcm, hpn]
    have hval : (i.natAbs : Int) = i := by omega
    show (Option.some (((i.natAbs : Int)), w)).bind
      (fun nr : Int × Str =>
        match nr.2 with
        | c :: _ => if c = '.' || c = 'e' || c = 'E' then none else some nr
        | [] => some nr) = some (i, w)
    rw [hval]
    exact hTail i

/-! ### Round-trip: whole values -/

theorem skipWs_cons_of {c : Char} (l : Str) (h : jsonWs c = false) :
    skipWs (c :: l) = c :: l := by
  simp [skipWs, List.dropWhile_cons, h]

theorem parseVal_wsHead (f : Nat) {c : Char} (l : Str) (h : jsonWs c = true) :
    parseVal f (c :: l) = parseVal f l := by
  cases f with
  | zero => rfl
  | succ f =>
    rw [parseVal, parseVal,
      show skipWs (c :: l) = skipWs l from by simp [skipWs, List.dropWhile_cons, h]]

theorem parseItems_wsHead (f : Nat) {c : Char} (l : Str) (h : jsonWs c = true) :
    parseItems f (c :: l) = parseItems f l := by
  cases f with
  | zero => rfl
  | succ f => rw [parseItems, parseItems, parseVal_wsHead f l h]

theorem parseFields_wsHead (f : Nat) {c : Char} (l : Str) (h : jsonWs c = true) :
    parseFields f (c :: l) = parseFields f l := by
  cases f with
  | zero => rfl
  | succ f =>
    rw [parseFields, parseFields,
      show skipWs (c :: l) = skipWs l from by simp [skipWs, List.dropWhile_cons, h]]

theorem digitChar_props {c : Char} (h : digitChar c = true) :
    jsonWs c = false ∧ c ≠ 'n' ∧ c ≠ 't' ∧ c ≠ 'f' ∧ c ≠ '"' ∧ c ≠ '[' ∧ c ≠ '{' ∧
      c ≠ '-' ∧ c ≠ ']' ∧ c ≠ '}' ∧ c ≠ ',' := by
  refine ⟨?_, ?_, ?_, ?_, ?_, ?_, ?_, ?_, ?_, ?_, ?_⟩
  · cases hjw : jsonWs c
    · rfl
    · exfalso
      simp only [jsonWs, Bool.or_eq_true, decide_eq_true_eq] at hjw
      rcases hjw with ((rfl | rfl) | rfl) | rfl <;> exact absurd h (by decide)
  all_goals (rintro rfl; exact absurd h (by decide))

/-- The first character of any rendered value: not whitespace, and none of the
characters that end a surrounding construct. -/
theorem dumps_head (v : JVal) :
    ∃ c t, dumps v = c :: t ∧ jsonWs c = false ∧ c ≠ ']' ∧ c ≠ '}' ∧ c ≠ ',' := by
  cases v with
  | null => exact ⟨'n', _, rfl, by decide, by decide, by decide, by decide⟩
  | boolean b =>
    cases b with
    | true => exact ⟨'t', _, rfl, by decide, by decide, by decide, by decide⟩
    | false => exact ⟨'f', _, rfl, by decide, by decide, by decide, by decide⟩
  | str s => exact ⟨'"', _, rfl, by decide, by decide, by decide, by decide⟩
  | arr xs => exact ⟨'[', _, rfl, by decide, by decide, by decide, by decide⟩
  | obj fs => exact ⟨'{', _, rfl, by decide, by decide, by decide, by decide⟩
  | num i =>
    by_cases hi : i < 0
    · refine ⟨'-', natChars i.natAbs, ?_, by decide, by decide, by decide, by decide⟩
      show intChars i = _
      rw [intChars, if_pos hi]
      rfl
    · obtain ⟨c, t, hct⟩ : ∃ c t, natChars i.natAbs = c :: t := by
        match h : natChars i.natAbs with
        | [] => exact absurd h (natChars_ne_nil _)
        | c :: t => exact ⟨c, t, rfl⟩
      have hcd : digitChar c = true := natChars_digits _ c (hct ▸ List.mem_cons_self c t)
      obtain ⟨w1, _, _, _, _, _, _, _, w9, w10, w11⟩ := digitChar_props hcd
      refine ⟨c, t, ?_, w1, w9, w10, w11⟩
      show intChars i = _
      rw [intChars, if_neg hi, hct]
      rfl

theorem skipWs_dumps (v : JVal) (w : Str) : skipWs (dumps v ++ w) = dumps v ++ w := by
  obtain ⟨c, t, hct, hws, _, _, _⟩ := dumps_head v
  rw [hct, List.cons_append, skipWs_cons_of _ hws]

/-- When the remainder cannot extend a number, any value is safe before it. -/
def numSafe : JVal → Str → Prop
  | .num _, w => numDelim w = true
  | _, _ => True

theorem numSafe_of_delim {w : Str} (h : numDelim w = true) (v : JVal) : numSafe v w := by
  cases v <;> trivial

theorem parseVal_step_num (f : Nat) {c0 : Char} (t : Str)
    (hws : jsonWs c0 = false) (hn : c0 ≠ 'n') (ht : c0 ≠ 't') (hf : c0 ≠ 'f')
    (hq : c0 ≠ '"') (hlb : c0 ≠ '[') (hob : c0 ≠ '{')
    (hg : (c0 = '-' || digitChar c0) = true) :
    parseVal (f + 1) (c0 :: t)
      = (parseIntTok (c0 :: t)).map (fun nr => (JVal.num nr.1, nr.2)) := by
  rw [parseVal, skipWs_cons_of _ hws]
  split
  · rename_i heq; rw [List.cons.injEq] at heq; exact absurd heq.1 hn
  · rename_i heq; rw [List.cons.injEq] at heq; exact absurd heq.1 ht
  · rename_i heq; rw [List.cons.injEq] at heq; exact absurd heq.1 hf
  · rename_i heq; rw [List.cons.injEq] at heq; exact absurd heq.1 hq
  · rename_i heq; rw [List.cons.injEq] at heq; exact absurd heq.1 hlb
  · rename_i heq; rw [List.cons.injEq] at heq; exact absurd heq.1 hob
  · rename_i c' r' heq
    rw [List.cons.injEq] at heq
    obtain ⟨rfl, rfl⟩ := heq
    rw [if_pos hg]
  · rename_i heq; exact absurd heq (by simp)

theorem parseVal_step_arr (f : Nat) (r r2 : Str) (h : skipWs r = r2)
    (hne : ∀ u, r2 ≠ ']' :: u) :
    parseVal (f + 1) ('[' :: r) = (parseItems f r2).map (fun xr => (JVal.arr xr.1, xr.2)) := by
  rw [parseVal, skipWs_cons_of _ (by decide)]
  show (match skipWs r with
    | ']' :: u => some (JVal.arr [], u)
    | u => Option.map (fun xr : List JVal × Str => (JVal.arr xr.1, xr.2)) (parseItems f u)) = _
  rw [h]
  cases r2 with
  | nil => rfl
  | cons c u =>
    by_cases hc : c = ']'
    · exact absurd (hc ▸ rfl) (hne u)
    · split
      · rename_i heq; rw [List.cons.injEq] at heq; exact absurd heq.1 hc
      · rfl

theorem parseVal_step_obj (f : Nat) (r r2 : Str) (h : skipWs r = r2)
    (hne : ∀ u, r2 ≠ '}' :: u) :
    parseVal (f + 1) ('{' :: r) = (parseFields f r2).map (fun fr => (JVal.obj fr.1, fr.2)) := by
  rw [parseVal, skipWs_cons_of _ (by decide)]
  show (match skipWs r with
    | '}' :: u => some (JVal.obj [], u)
    | u => Option.map (fun fr : List (Str × JVal) × Str => (JVal.obj fr.1, fr.2)) (parseFields f u)) = _
  rw [h]
  cases r2 with
  | nil => rfl
  | cons c u =>
    by_cases hc : c = '}'
    · exact absurd (hc ▸ rfl) (hne u)
    · split
      · rename_i heq; rw [List.cons.injEq] at heq; exact absurd heq.1 hc
      · rfl

mutual

theorem rtVal : ∀ (v : JVal) (fuel : Nat) (w : Str),
    (dumps v).length < fuel → numSafe v w →
    parseVal fuel (dumps v ++ w) = some (v, w)
  | .null, fuel, w, hf, _ => by
    cases fuel with
    | zero => exact absurd hf (by simp)
    | succ f =>
      show parseVal (f + 1) ('n' :: 'u' :: 'l' :: 'l' :: w) = _
      rw [parseVal, skipWs_cons_of _ (by decide)]
      rfl
  | .boolean true, fuel, w, hf, _ => by
    cases fuel with
    | zero => exact absurd hf (by simp)
    | succ f =>
      show parseVal (f + 1) ('t' :: 'r' :: 'u' :: 'e' :: w) = _
      rw [parseVal, skipWs_cons_of _ (by decide)]
      rfl
  | .boolean false, fuel, w, hf, _ => by
    cases fuel with
    | zero => exact absurd hf (by simp)
    | succ f =>
      show parseVal (f + 1) ('f' :: 'a' :: 'l' :: 's' :: 'e' :: w) = _
      rw [parseVal, skipWs_cons_of _ (by decide)]
      rfl
  | .num i, fuel, w, hf, hsafe => by
    cases fuel with
    | zero => exact absurd hf (by simp)
    | succ f =>
      have hdelim : numDelim w = true := hsafe
      by_cases hi : i < 0
      · have harg : dumps (.num i) ++ w = '-' :: (natChars i.natAbs ++ w) := by
          show intChars i ++ w = _
          rw [intChars, if_pos hi]
          rfl
        rw [harg, parseVal_step_num f _ (by decide) (by decide) (by decide) (by decide)
          (by decide) (by decide) (by decide) (by decide), ← harg]
        show (parseIntTok (intChars i ++ w)).map _ = _
        rw [parseIntTok_intChars i w hdelim]
        rfl
      · obtain ⟨c, t, hct⟩ : ∃ c t, natChars i.natAbs = c :: t := by
          match h : natChars i.natAbs with
          | [] => exact absurd h (natChars_ne_nil _)
          | c :: t => exact ⟨c, t, rfl⟩
        have hcd : digitChar c = true := natChars_digits _ c (hct ▸ List.mem_cons_self c t)
        obtain ⟨w1, w2, w3, w4, w5, w6, w7, w8, _, _, _⟩ := digitChar_props hcd
        have harg : dumps (.num i) ++ w = c :: (t ++ w) := by
          show intChars i ++ w = _
          rw [intChars, if_neg hi, hct]
          rfl
        rw [harg, parseVal_step_num f _ w1 w2 w3 w4 w5 w6 w7 (by simp [hcd]), ← harg]
        show (parseIntTok (intChars i ++ w)).map _ = _
        rw [parseIntTok_intChars i w hdelim]
        rfl
  | .str s, fuel, w, hf, _ => by
    cases fuel with
    | zero => exact absurd hf (by simp)
    | succ f =>
      have harg : dumps (.str s) ++ w = '"' :: (escStr s ++ '"' :: w) := by
        show '"' :: (escStr s ++ ['"']) ++ w = _
        simp
      rw [harg, parseVal, skipWs_cons_of _ (by decide)]
      show (parseStrBody (escStr s ++ '"' :: w)).map _ = _
      rw [parseStrBody_escStr]
      rfl
  | .arr [], fuel, w, hf, _ => by
    cases fuel with
    | zero => exact absurd hf (by simp)
    | succ f =>
      show parseVal (f + 1) ('[' :: ']' :: w) = _
      rw [parseVal, skipWs_cons_of _ (by decide)]
      rfl
  | .arr (x :: xs), fuel, w, hf, _ => by
    cases fuel with
    | zero => exact absurd hf (by simp)
    | succ f =>
      have harg : dumps (.arr (x :: xs)) ++ w
          = '[' :: (dumpsItems (x :: xs) ++ ']' :: w) := by
        show '[' :: (dumpsItems (x :: xs) ++ [']']) ++ w = _
        simp
      obtain ⟨c, t, hct, hws, hcr, _, _⟩ := dumps_head x
      have hhead : ∃ u, dumpsItems (x :: xs) ++ ']' :: w = c :: u := by
        cases xs with
        | nil => exact ⟨t ++ ']' :: w, by rw [dumpsItems, hct]; simp⟩
        | cons y ys =>
          exact ⟨t ++ (S ", " ++ dumpsItems (y :: ys)) ++ ']' :: w,
            by rw [dumpsItems, hct]; simp⟩
      obtain ⟨u, hu⟩ := hhead
      have hlen : (dumpsItems (x :: xs)).length + 1 < f := by
        have : (dumps (.arr (x :: xs))).length = (dumpsItems (x :: xs)).length + 2 := by
          show ('[' :: (dumpsItems (x :: xs) ++ [']'])).length = _
          simp
        omega
      have hskip : skipWs (dumpsItems (x :: xs) ++ ']' :: w)
          = dumpsItems (x :: xs) ++ ']' :: w := by
        rw [hu]; exact skipWs_cons_of u hws
      have hne : ∀ u', dumpsItems (x :: xs) ++ ']' :: w ≠ ']' :: u' := by
        rw [hu]; intro u' hcontra; rw [List.cons.injEq] at hcontra; exact hcr hcontra.1
      rw [harg, parseVal_step_arr f _ _ hskip hne, rtItems x xs f w hlen]
      rfl
  | .obj [], fuel, w, hf, _ => by
    cases fuel with
    | zero => exact absurd hf (by simp)
    | succ f =>
      show parseVal (f + 1) ('{' :: '}' :: w) = _
      rw [parseVal, skipWs_cons_of _ (by decide)]
      rfl
  | .obj (kv :: fs), fuel, w, hf, _ => by
    cases fuel with
    | zero => exact absurd hf (by simp)
    | succ f =>
      have harg : dumps (.obj (kv :: fs)) ++ w
          = '{' :: (dumpsFields (kv :: fs) ++ '}' :: w) := by
        show '{' :: (dumpsFields (kv :: fs) ++ ['}']) ++ w = _
        simp
      have hhead : ∃ u, dumpsFields (kv :: fs) ++ '}' :: w = '"' :: u := by
        obtain ⟨k, v⟩ := kv
        cases fs with
        | nil =>
          refine ⟨escStr k ++ '"' :: (S ": " ++ (dumps v ++ '}' :: w)), ?_⟩
          rw [dumpsFields]; simp
        | cons y ys =>
          refine ⟨escStr k ++ '"' ::
            (S ": " ++ (dumps v ++ (S ", " ++ (dumpsFields (y :: ys) ++ '}' :: w)))), ?_⟩
          rw [dumpsFields]; simp
      obtain ⟨u, hu⟩ := hhead
      have hlen : (dumpsFields (kv :: fs)).length + 1 < f := by
        have : (dumps (.obj (kv :: fs))).length = (dumpsFields (kv :: fs)).length + 2 := by
          show ('{' :: (dumpsFields (kv :: fs) ++ ['}'])).length = _
          simp
        omega
      have hskip : skipWs (dumpsFields (kv :: fs) ++ '}' :: w)
          = dumpsFields (kv :: fs) ++ '}' :: w := by
        rw [hu]; exact skipWs_cons_of u (by decide)
      have hne : ∀ u', dumpsFields (kv :: fs) ++ '}' :: w ≠ '}' :: u' := by
        rw [hu]; intro u' hcontra; rw [List.cons.injEq] at hcontra
        exact absurd hcontra.1 (by decide)
      rw [harg, parseVal_step_obj f _ _ hskip hne, rtFields kv fs f w hlen]
      rfl
termination_by v _ _ _ _ => sizeOf v

theorem rtItems : ∀ (x : JVal) (xs : List JVal) (fuel : Nat) (w : Str),
    (dumpsItems (x :: xs)).length + 1 < fuel →
    parseItems fuel (dumpsItems (x :: xs) ++ ']' :: w) = some (x :: xs, w)
  | x, [], fuel, w, hf => by
    cases fuel with
    | zero => exact absurd hf (by omega)
    | succ f =>
      have hfx : (dumps x).length < f := by
        have : dumpsItems [x] = dumps x := rfl
        rw [this] at hf
        omega
      have hx := rtVal x f (']' :: w) hfx
        (numSafe_of_delim (show numDelim (']' :: w) = true from rfl) x)
      rw [show dumpsItems [x] ++ ']' :: w = dumps x ++ ']' :: w from rfl]
      rw [parseItems, hx]
      rfl
  | x, y :: ys, fuel, w, hf => by
    cases fuel with
    | zero => exact absurd hf (by omega)
    | succ f =>
      have hshape : dumpsItems (x :: y :: ys) ++ ']' :: w
          = dumps x ++ (',' :: ' ' :: (dumpsItems (y :: ys) ++ ']' :: w)) := by
        rw [dumpsItems]
        simp [S]
      have hlens : (dumpsItems (x :: y :: ys)).length
          = (dumps x).length + 2 + (dumpsItems (y :: ys)).length := by
        rw [dumpsItems]
        simp [S]
        omega
      have hfx : (dumps x).length < f := by omega
      have hfy : (dumpsItems (y :: ys)).length + 1 < f := by omega
      have hx := rtVal x f (',' :: ' ' :: (dumpsItems (y :: ys) ++ ']' :: w)) hfx
        (numSafe_of_delim (show numDelim (',' :: ' ' :: (dumpsItems (y :: ys) ++ ']' :: w)) = true
          from rfl) x)
      rw [hshape, parseItems, hx]
      show Option.map (fun xr : List JVal × Str => (x :: xr.1, xr.2))
        (parseItems f (' ' :: (dumpsItems (y :: ys) ++ ']' :: w))) = _
      rw [parseItems_wsHead f _ (by decide), rtItems y ys f w hfy]
      rfl
termination_by x xs _ _ _ => sizeOf x + sizeOf xs

theorem rtFields : ∀ (kv : Str × JVal) (fs : List (Str × JVal)) (fuel : Nat) (w : Str),
    (dumpsFields (kv :: fs)).length + 1 < fuel →
    parseFields fuel (dumpsFields (kv :: fs) ++ '}' :: w) = some (kv :: fs, w)
  | (k, v), [], fuel, w, hf => by
    cases fuel with
    | zero => exact absurd hf (by omega)
    | succ f =>
      have hshape : dumpsFields [(k, v)] ++ '}' :: w
          = '"' :: (escStr k ++ '"' :: (':' :: ' ' :: (dumps v ++ '}' :: w))) := by
        rw [dumpsFields]
        simp [S]
      have hlens : (dumpsFields [(k, v)]).length
          = (escStr k).length + 4 + (dumps v).length := by
        rw [dumpsFields]
        simp [S]
        omega
      have hfv : (dumps v).length < f := by omega
      have hv := rtVal v f ('}' :: w) hfv
        (numSafe_of_delim (show numDelim ('}' :: w) = true from rfl) v)
      rw [hshape, parseFields]
      show (parseStrBody (escStr k ++ '"' :: (':' :: ' ' :: (dumps v ++ '}' :: w)))).bind _ = _
      rw [parseStrBody_escStr]
      show (parseVal f (' ' :: (dumps v ++ '}' :: w))).bind _ = _
      rw [parseVal_wsHead f _ (by decide), hv]
      rfl
  | (k, v), y :: ys, fuel, w, hf => by
    cases fuel with
    | zero => exact absurd hf (by omega)
    | succ f =>
      have hshape : dumpsFields ((k, v) :: y :: ys) ++ '}' :: w
          = '"' :: (escStr k ++ '"' :: (':' :: ' ' ::
              (dumps v ++ (',' :: ' ' :: (dumpsFields (y :: ys) ++ '}' :: w))))) := by
        rw [dumpsFields]
        simp [S]
      have hlens : (dumpsFields ((k, v) :: y :: ys)).length
          = (escStr k).length + 6 + (dumps v).length + (dumpsFields (y :: ys)).length := by
        rw [dumpsFields]
        simp [S]
        omega
      have hfv : (dumps v).length < f := by omega
      have hfy : (dumpsFields (y :: ys)).length + 1 < f := by omega
      have hv := rtVal v f (',' :: ' ' :: (dumpsFields (y :: ys) ++ '}' :: w)) hfv
        (numSafe_of_delim (show numDelim (',' :: ' ' :: (dumpsFields (y :: ys) ++ '}' :: w)) = true
          from rfl) v)
      rw [hshape, parseFields]
      show (parseStrBody (escStr k ++ '"' :: (':' :: ' ' ::
        (dumps v ++ (',' :: ' ' :: (dumpsFields (y :: ys) ++ '}' :: w)))))).bind _ = _
      rw [parseStrBody_escStr]
      show (parseVal f (' ' :: (dumps v ++ (',' :: ' ' ::
        (dumpsFields (y :: ys) ++ '}' :: w))))).bind _ = _
      rw [parseVal_wsHead f _ (by decide), hv]
      show Option.map (fun fr : List (Str × JVal) × Str => ((k, v) :: fr.1, fr.2))
        (parseFields f (' ' :: (dumpsFields (y :: ys) ++ '}' :: w))) = _
      rw [parseFields_wsHead f _ (by decide), rtFields y ys f w hfy]
      rfl
termination_by kv fs _ _ _ => sizeOf kv + sizeOf fs

end

/-- `json.loads` inverts `json.dumps`. -/
theorem loads_dumps (v : JVal) : loads (dumps v) = some v := by
  rw [loads]
  have h := rtVal v ((dumps v).length + 1) [] (by omega)
    (numSafe_of_delim (show numDelim [] = true from rfl) v)
  rw [List.append_nil] at h
  rw [h]
  rfl

/-! ### Saved lines are newline-free and non-blank -/

theorem hexDigit_ne_nl {k : Nat} (h : k < 16) : hexDigit k ≠ '\n' := by
  interval_cases k <;> decide

theorem escChar_nonl (c : Char) : '\n' ∉ escChar c := by
  rw [escChar]
  by_cases h1 : c = '"'
  · simp [h1]
  by_cases h2 : c = '\\'
  · simp [h1, h2]
  by_cases h3 : c = '\n'
  · simp [h1, h2, h3]
  by_cases h4 : c = '\t'
  · simp [h1, h2, h3, h4]
  by_cases h5 : c = '\r'
  · simp [h1, h2, h3, h4, h5]
  by_cases h6 : c = '\x08'
  · simp [h1, h2, h3, h4, h5, h6]
  by_cases h7 : c = '\x0c'
  · simp [h1, h2, h3, h4, h5, h6, h7]
  by_cases h8 : c.toNat < 0x20
  · simp only [h1, h2, h3, h4, h5, h6, h7, if_neg, if_false, if_pos h8]
    have hhi : c.toNat / 16 < 16 := by omega
    have hlo : c.toNat % 16 < 16 := Nat.mod_lt _ (by omega)
    intro hmem
    rcases List.mem_cons.mp hmem with h | hmem
    · exact absurd h (by decide)
    rcases List.mem_cons.mp hmem with h | hmem
    · exact absurd h (by decide)
    rcases List.mem_cons.mp hmem with h | hmem
    · exact absurd h (by decide)
    rcases List.mem_cons.mp hmem with h | hmem
    · exact absurd h (by decide)
    rcases List.mem_cons.mp hmem with h | hmem
    · exact absurd h.symm (hexDigit_ne_nl hhi)
    rcases List.mem_cons.mp hmem with h | hmem
    · exact absurd h.symm (hexDigit_ne_nl hlo)
    cases hmem
  · simp only [h1, h2, h3, h4, h5, h6, h7, h8, if_neg, if_false]
    intro hmem
    rw [List.mem_singleton] at hmem
    exact h3 hmem.symm

theorem escStr_nonl (s : Str) : '\n' ∉ escStr s := by
  intro hmem
  rw [escStr, List.mem_flatMap] at hmem
  obtain ⟨c, _, hc⟩ := hmem
  exact escChar_nonl c hc

theorem digitChar_ne_nl {c : Char} (h : digitChar c = true) : c ≠ '\n' := by
  rintro rfl
  exact absurd h (by decide)

theorem intChars_nonl (i : Int) : '\n' ∉ intChars i := by
  intro hmem
  rw [intChars, List.mem_append] at hmem
  rcases hmem with hmem | hmem
  · split at hmem
    · rw [List.mem_singleton] at hmem; cases hmem
    · cases hmem
  · exact digitChar_ne_nl (natChars_digits _ _ hmem) rfl

theorem not_mem_append {c : Char} {a b : Str} (ha : c ∉ a) (hb : c ∉ b) : c ∉ a ++ b := by
  intro h
  rcases List.mem_append.mp h with h | h
  · exact ha h
  · exact hb h

mutual

theorem dumps_nonl : ∀ (v : JVal), '\n' ∉ dumps v
  | .null => by decide
  | .boolean true => by decide
  | .boolean false => by decide
  | .num i => intChars_nonl i
  | .str s => by
    rw [show dumps (.str s) = '"' :: (escStr s ++ ['"']) from rfl]
    intro h
    rcases List.mem_cons.mp h with h | h
    · exact absurd h (by decide)
    · exact not_mem_append (escStr_nonl s) (by decide) h
  | .arr xs => by
    rw [show dumps (.arr xs) = '[' :: (dumpsItems xs ++ [']']) from rfl]
    intro h
    rcases List.mem_cons.mp h with h | h
    · exact absurd h (by decide)
    · exact not_mem_append (dumpsItems_nonl xs) (by decide) h
  | .obj fs => by
    rw [show dumps (.obj fs) = '{' :: (dumpsFields fs ++ ['}']) from rfl]
    intro h
    rcases List.mem_cons.mp h with h | h
    · exact absurd h (by decide)
    · exact not_mem_append (dumpsFields_nonl fs) (by decide) h

theorem dumpsItems_nonl : ∀ (xs : List JVal), '\n' ∉ dumpsItems xs
  | [] => by intro h; cases h
  | [x] => dumps_nonl x
  | x :: y :: t => by
    rw [dumpsItems]
    exact not_mem_append (dumps_nonl x)
      (not_mem_append (by decide) (dumpsItems_nonl (y :: t)))

theorem dumpsFields_nonl : ∀ (fs : List (Str × JVal)), '\n' ∉ dumpsFields fs
  | [] => by intro h; cases h
  | [(k, v)] => by
    rw [dumpsFields]
    intro h
    rcases List.mem_cons.mp h with h | h
    · exact absurd h (by decide)
    · refine not_mem_append (escStr_nonl k) ?_ h
      intro h
      rcases List.mem_cons.mp h with h | h
      · exact absurd h (by decide)
      · exact not_mem_append (by decide) (dumps_nonl v) h
  | (k, v) :: y :: t => by
    rw [dumpsFields]
    intro h
    rcases List.mem_cons.mp h with h | h
    · exact absurd h (by decide)
    · refine not_mem_append (escStr_nonl k) ?_ h
      intro h
      rcases List.mem_cons.mp h with h | h
      · exact absurd h (by decide)
      · exact not_mem_append (by decide)
          (not_mem_append (dumps_nonl v)
            (not_mem_append (by decide) (dumpsFields_nonl (y :: t)))) h

end

theorem mem_dropWhile_of_not {p : Char → Bool} {c : Char} (hc : p c = false) :
    ∀ {l : Str}, c ∈ l → c ∈ l.dropWhile p := by
  intro l
  induction l with
  | nil => intro h; cases h
  | cons a t ih =>
    intro h
    rw [List.dropWhile_cons]
    by_cases ha : p a
    · rw [if_pos ha]
      rcases List.mem_cons.mp h with rfl | h
      · rw [ha] at hc; cases hc
      · exact ih h
    · rw [if_neg ha]
      exact h

theorem mem_pyStrip {c : Char} (hc : pyWs c = false) {l : Str} (h : c ∈ l) :
    c ∈ pyStrip l := by
  rw [pyStrip]
  rw [List.mem_reverse]
  apply mem_dropWhile_of_not hc
  rw [List.mem_reverse]
  exact mem_dropWhile_of_not hc h

theorem pyStrip_obj_not_blank (fs : List (Str × JVal)) :
    (pyStrip (dumps (.obj fs))).isEmpty = false := by
  have hmem : '{' ∈ dumps (.obj fs) := List.mem_cons_self _ _
  have := mem_pyStrip (c := '{') (by decide) hmem
  cases h : pyStrip (dumps (.obj fs)) with
  | nil => rw [h] at this; cases this
  | cons a t => rfl

theorem splitLines_append {a : Str} (ha : '\n' ∉ a) (r : Str) :
    splitLines (a ++ '\n' :: r) = a :: splitLines r := by
  induction a with
  | nil =>
    show splitLines ('\n' :: r) = _
    rw [splitLines, if_pos rfl]
  | cons c t ih =>
    have hc : c ≠ '\n' := fun h => ha (h ▸ List.mem_cons_self c t)
    have ht : '\n' ∉ t := fun h => ha (List.mem_cons_of_mem c h)
    show splitLines (c :: (t ++ '\n' :: r)) = _
    rw [splitLines, if_neg hc, ih ht]

/-- `save_jsonl` then `load_jsonl` restores every document exactly: each line
carries its `doc_id`, `text` and `metadata`, so nothing is regenerated. -/
theorem loadLines_saveJsonl (fresh : Nat → Str) :
    ∀ (docs : List StoredDoc) (k : Nat),
      loadLinesGo fresh (splitLines (saveJsonl docs)) k = some docs := by
  intro docs
  induction docs with
  | nil => intro k; rfl
  | cons d ds ih =>
    intro k
    have hsave : saveJsonl (d :: ds) = dumps d.toJson ++ '\n' :: saveJsonl ds := by
      show (dumps d.toJson ++ ['\n']) ++ saveJsonl ds = _
      simp
    rw [hsave, splitLines_append (dumps_nonl d.toJson), loadLinesGo]
    rw [if_neg (by
      rw [show StoredDoc.toJson d = JVal.obj [(S "doc_id", d.doc_id), (S "text", d.text),
        (S "metadata", d.metadata)] from rfl, pyStrip_obj_not_blank]
      simp)]
    rw [show dumps d.toJson = dumps (.obj [(S "doc_id", d.doc_id), (S "text", d.text),
      (S "metadata", d.metadata)]) from rfl]
    rw [loads_dumps]
    show (loadLinesGo fresh (splitLines (saveJsonl ds)) (k + 1)).map _ = _
    rw [ih (k + 1)]
    rfl

/-! ### Example record lists used by witnesses and counterexamples -/

/-- A two-cycle: `a` evolves from `b` and `b` from `a`. -/
def psCycle : List Creature :=
  [mkCreature (some (S "a")) (some (S "b")), mkCreature (some (S "b")) (some (S "a"))]

/-- A creature whose parent name has no record. -/
def psMissing : List Creature := [mkCreature (some (S "X")) (some (S "B"))]

/-- A two-step chain whose top parent name has no record. -/
def psChainMissing : List Creature :=
  [mkCreature (some (S "X")) (some (S "Y")), mkCreature (some (S "Y")) (some (S "B"))]

/-- The Eevee/Leafeon example expansion. -/
def psEevee : List Creature :=
  [mkCreature (some (S "Eevee")) (some (S "")),
   mkCreature (some (S "Leafeon")) (some (S "Eevee"))]

/-- A single creature that names itself as its parent. -/
def psSelfLoop : List Creature := [mkCreature (some (S "A")) (some (S "A"))]

/-! ### Claim theorems -/

/-- Claim C2: for every creature list, base resolution terminates within
`|records| + 1` loop iterations (so at most `|records|` link-following
steps) and never fails, on cycles and missing parents included; and whenever
the walk revisits an already-visited name it returns the original starting
name as the fallback base. -/
theorem claim_C2 : ∀ (ps : List Creature) (n : Str),
    (∃ r, findBaseAux ps n (ps.length + 1) [] n = some r) ∧
    (∀ (fuel : Nat) (seen : List Str) (cur : Str), cur ∈ seen →
      findBaseAux ps n (fuel + 1) seen cur = some n) := by
  intro ps n
  refine ⟨Option.isSome_iff_exists.mp (findBase_some ps n), ?_⟩
  intro fuel seen cur h
  exact findBaseAux_revisit ps n fuel seen cur h

/-- Witness for C2 on the two-cycle `a ↔ b`: the walk completes, and
revisiting `a` ends the walk with the starting name `a`. -/
theorem claim_C2_witness :
    (∃ r, findBaseAux psCycle (S "a") (psCycle.length + 1) [] (S "a") = some r) ∧
    findBaseAux psCycle (S "a") 1 [S "a"] (S "a") = some (S "a") :=
  ⟨(claim_C2 psCycle (S "a")).1,
   (claim_C2 psCycle (S "a")).2 0 [S "a"] (S "a") (List.mem_singleton_self _)⟩

/-- Counterexample to claim C3 as stated: `X` evolves from `B` and no record
named `B` exists; the walk reaches current name `B` (third conjunct), whose
record is absent (first conjunct), yet the resolved base is the starting name
`X`, not the current name `B`. -/
theorem claim_C3_counterexample :
    nameMap psMissing (S "B") = none ∧
    findBaseAux psMissing (S "X") (psMissing.length + 1) [] (S "X")
      = findBaseAux psMissing (S "X") psMissing.length [S "X"] (S "B") ∧
    findBase psMissing (S "X") = S "X" ∧ S "X" ≠ S "B" :=
  ⟨rfl, rfl, rfl, by decide⟩

/-- Claim C3 (amended): whenever the current name's record is absent from the
expansion's name lookup, the walk stops and returns the walk's original
starting name (not the current name) as the base. -/
theorem claim_C3 : ∀ (ps : List Creature) (n : Str) (fuel : Nat)
    (seen : List Str) (cur : Str), nameMap ps cur = none →
    findBaseAux ps n (fuel + 1) seen cur = some n := by
  intro ps n fuel seen cur h
  exact findBaseAux_absent ps n fuel seen cur h

/-- Witness for C3 in the missing-parent scenario: the walk state at absent
name `B` returns the starting name `X`. -/
theorem claim_C3_witness :
    findBaseAux psMissing (S "X") 1 [S "X"] (S "B") = some (S "X") :=
  claim_C3 psMissing (S "X") 0 [S "X"] (S "B") (by rfl)

/-- Claim C6: loading the JSONL file written by serialization restores every
document exactly — same order, same `text` and `metadata`; every written line
carries its `doc_id`, so no identifier is regenerated. -/
theorem claim_C6 : ∀ (fresh : Nat → Str) (docs : List StoredDoc),
    loadJsonl fresh (saveJsonl docs) = some docs := by
  intro fresh docs
  rw [loadJsonl]
  exact loadLines_saveJsonl fresh docs 0

/-- Claim C8: `slugify` is idempotent. -/
theorem claim_C8 : ∀ s : Str, slug (slug s) = slug s :=
  slug_idem

/-- Claim C9: on deserialization, blank lines are skipped; a parsed line
whose object misses `doc_id` still yields a document, with a freshly
synthesized identifier; a missing `metadata` key defaults to the empty
mapping; and a line without `text` aborts the whole load (the Python
`KeyError`), producing no documents. -/
theorem claim_C9 : ∀ (fresh : Nat → Str) (line : Str) (rest : List Str) (k : Nat)
    (fs : List (Str × JVal)),
    ((pyStrip line).isEmpty = true →
      loadLinesGo fresh (line :: rest) k = loadLinesGo fresh rest k) ∧
    (getField fs (S "text") = none →
      loadLinesGo fresh (dumps (.obj fs) :: rest) k = none) ∧
    (∀ tv, getField fs (S "text") = some tv →
      loadLinesGo fresh (dumps (.obj fs) :: rest) k
        = (loadLinesGo fresh rest (k + 1)).map (fun ds =>
            { doc_id := (getField fs (S "doc_id")).getD (.str (fresh k)),
              text := tv,
              metadata := (getField fs (S "metadata")).getD (.obj []) } :: ds)) ∧
    (getField fs (S "doc_id") = none →
      (getField fs (S "doc_id")).getD (.str (fresh k)) = .str (fresh k)) ∧
    (getField fs (S "metadata") = none →
      (getField fs (S "metadata")).getD (.obj []) = .obj []) := by
  intro fresh line rest k fs
  refine ⟨?_, ?_, ?_, ?_, ?_⟩
  · intro hblank
    rw [loadLinesGo, if_pos hblank]
  · intro htext
    rw [loadLinesGo, if_neg (by rw [pyStrip_obj_not_blank]; simp), loads_dumps]
    show (match getField fs (S "text") with
      | some tv =>
        Option.map (fun ds =>
          ({ doc_id := (getField fs (S "doc_id")).getD (JVal.str (fresh k)), text := tv,
              metadata := (getField fs (S "metadata")).getD (JVal.obj []) } : StoredDoc) :: ds)
          (loadLinesGo fresh rest (k + 1))
      | none => none) = none
    rw [htext]
  · intro tv htext
    rw [loadLinesGo, if_neg (by rw [pyStrip_obj_not_blank]; simp), loads_dumps]
    show (match getField fs (S "text") with
      | some tv =>
        Option.map (fun ds =>
          ({ doc_id := (getField fs (S "doc_id")).getD (JVal.str (fresh k)), text := tv,
              metadata := (getField fs (S "metadata")).getD (JVal.obj []) } : StoredDoc) :: ds)
          (loadLinesGo fresh rest (k + 1))
      | none => none) = _
    rw [htext]
  · intro hid
    rw [hid]
    rfl
  · intro hmeta
    rw [hmeta]
    rfl

/-- Witness for C9: a blank line is skipped; `{"a": null}` (no `"text"`)
aborts the load; `{"text": "hi"}` (no `"doc_id"`, no `"metadata"`) yields one
document carrying the fresh id and an empty metadata mapping. -/
theorem claim_C9_witness :
    (loadLinesGo (fun _ => S "u") [S " ", S "x"] 0
      = loadLinesGo (fun _ => S "u") [S "x"] 0) ∧
    (loadLinesGo (fun _ => S "u") [dumps (.obj [(S "a", JVal.null)])] 0 = none) ∧
    (loadLinesGo (fun _ => S "u") [dumps (.obj [(S "text", JVal.str (S "hi"))])] 0
      = some [{ doc_id := .str (S "u"), text := .str (S "hi"), metadata := .obj [] }]) := by
  refine ⟨(claim_C9 (fun _ => S "u") (S " ") [S "x"] 0 []).1 (by rfl),
          (claim_C9 (fun _ => S "u") (S "x") [] 0 [(S "a", JVal.null)]).2.1 (by rfl), ?_⟩
  have h := (claim_C9 (fun _ => S "u") (S "x") [] 0 [(S "text", JVal.str (S "hi"))]).2.2.1
    (JVal.str (S "hi")) (by rfl)
  exact h

/-! ### Metadata of the emitted documents -/

/-- Field lookup inside a JSON object value (`doc["metadata"][k]`). -/
def jGet : JVal → Str → Option JVal
  | .obj fs, k => getField fs k
  | _, _ => none

/-- A root ancestor of a non-empty name is itself non-empty: the walk starts
at a non-empty name and every walk step targets a non-empty name. -/
theorem isRoot_ne_nil {ps : List Creature} {n r : Str}
    (h : IsRoot ps n r) (hn : n ≠ []) : r ≠ [] := by
  obtain ⟨hreach, -⟩ := h
  induction hreach with
  | refl => exact hn
  | tail _ step _ =>
    obtain ⟨c, -, -, hb⟩ := step
    exact hb

/-- The document emitted at position `j` of `_expansion_to_docs` for the
`j`-th creature: `_pokemon_to_doc` applied to that creature, the pre-resolved
evolution base and the descendant flag of its normalized name. -/
theorem expansionToDocs_pokemon (ct : Bool) (fresh : Nat → Str) (e : Expansion)
    (ename : Str) (j : Nat) (p : Creature) (hj : e.pokemon[j]? = some p) :
    (expansionToDocs ct fresh e ename)[j]?
      = some (pokemonToDoc ct (fresh j) p (findBase e.pokemon (normName p.name))
          (hasChildren e.pokemon (normName p.name)) ename) := by
  have hlt : j < e.pokemon.length := by
    rcases List.getElem?_eq_some_iff.mp hj with ⟨hlt, -⟩
    exact hlt
  show ((e.pokemon.map (fun q uid =>
      pokemonToDoc ct uid q (findBase e.pokemon (normName q.name))
        (hasChildren e.pokemon (normName q.name)) ename) ++
    e.supporters.map (fun c uid => namedEffectToDoc ct uid c ename (S "supporters")) ++
    e.items.map (fun c uid => namedEffectToDoc ct uid c ename (S "items")) ++
    e.tools.map (fun c uid => namedEffectToDoc ct uid c ename (S "tools"))).mapIdx
      (fun i b => b (fresh i)))[j]? = _
  rw [List.getElem?_mapIdx]
  rw [List.getElem?_append_left (by
    simp only [List.length_append, List.length_map]
    omega)]
  rw [List.getElem?_append_left (by
    simp only [List.length_append, List.length_map]
    omega)]
  rw [List.getElem?_append_left (by
    simp only [List.length_map]
    omega)]
  rw [List.getElem?_map, hj]
  rfl

/-! ### Claims about the builder's metadata and text -/

/-- Counterexample to claim C1 as stated: in the acyclic chain `X → Y → B`
with no record named `B`, the resolver's base for `X` is `X` itself, and `X`
is not a root ancestor of `X` — the walk from `X` still has the link to `Y`
to follow, so the resolved base is not "the true root ancestor reached by
following evolves-from links". -/
theorem claim_C1_counterexample :
    Acyclic psChainMissing ∧
    findBase psChainMissing (S "X") = S "X" ∧
    ¬ IsRoot psChainMissing (S "X") (S "X") := by
  refine ⟨?_, rfl, ?_⟩
  · apply acyclic_of_rank psChainMissing
      (fun s => if s = S "X" then 0 else if s = S "Y" then 1 else 2)
    rintro a b ⟨p, hp, hname, hef, hb⟩
    rcases List.mem_cons.mp hp with rfl | hp
    · rw [← hname, ← hef]
      decide
    · rcases List.mem_cons.mp hp with rfl | hp
      · rw [← hname, ← hef]
        decide
      · simp at hp
  · rintro ⟨-, hterm⟩
    exact hterm (S "Y")
      ⟨mkCreature (some (S "X")) (some (S "Y")), rfl, by decide, by decide⟩

/-- Claim C1 (amended): when the evolves-from links are acyclic AND every
non-empty evolves-from reference resolves to a record in the list, each
creature with a non-empty normalized name receives an `evolution_base`
metadata value equal to the unique true root ancestor of its name, and its
`has_evolutions` metadata is true iff some other record in the list names it
as its evolves-from parent. -/
theorem claim_C1 : ∀ (ct : Bool) (fresh : Nat → Str) (e : Expansion) (ename : Str),
    Acyclic e.pokemon → AllResolve e.pokemon →
    ∀ (j : Nat) (p : Creature), e.pokemon[j]? = some p → normName p.name ≠ [] →
    ∃ d, (expansionToDocs ct fresh e ename)[j]? = some d ∧
      (∃ base, jGet d.metadata (S "evolution_base") = some (.str base) ∧
        IsRoot e.pokemon (normName p.name) base ∧
        ∀ r, IsRoot e.pokemon (normName p.name) r → r = base) ∧
      (jGet d.metadata (S "has_evolutions") = some (.boolean true) ↔
        ∃ (i : Nat) (q : Creature), e.pokemon[i]? = some q ∧ i ≠ j ∧
          normName q.evolves_from ≠ [] ∧
          normName q.evolves_from = normName p.name) := by
  intro ct fresh e ename hacy hres j p hj hne
  refine ⟨_, expansionToDocs_pokemon ct fresh e ename j p hj, ?_, ?_⟩
  · have hroot := findBase_isRoot e.pokemon (normName p.name) hacy hres hne
    have hbne : findBase e.pokemon (normName p.name) ≠ [] := isRoot_ne_nil hroot hne
    refine ⟨findBase e.pokemon (normName p.name), ?_, hroot,
      fun r hr => isRoot_unique hr hroot⟩
    have hmeta : jGet (pokemonToDoc ct (fresh j) p (findBase e.pokemon (normName p.name))
        (hasChildren e.pokemon (normName p.name)) ename).metadata (S "evolution_base")
        = some (.str (if findBase e.pokemon (normName p.name) = []
            then normName (some (orDefault p.name (S "UNKNOWN")))
            else findBase e.pokemon (normName p.name))) := rfl
    rw [hmeta, if_neg hbne]
  · have hmeta : jGet (pokemonToDoc ct (fresh j) p (findBase e.pokemon (normName p.name))
        (hasChildren e.pokemon (normName p.name)) ename).metadata (S "has_evolutions")
        = some (.boolean (hasChildren e.pokemon (normName p.name))) := rfl
    rw [hmeta, Option.some.injEq, JVal.boolean.injEq]
    constructor
    · intro hb
      obtain ⟨q, hq, hqne, hqeq⟩ := (hasChildren_iff _ _).mp hb
      obtain ⟨i, hi, hgi⟩ := List.mem_iff_getElem.mp hq
      have hqi : e.pokemon[i]? = some q := by
        rw [List.getElem?_eq_getElem hi, hgi]
      refine ⟨i, q, hqi, ?_, hqne, hqeq⟩
      intro hij
      subst hij
      rw [hj] at hqi
      injection hqi with hpq
      subst hpq
      exact hacy (normName p.name)
        (Relation.TransGen.single ⟨p, hq, rfl, hqeq, hne⟩)
    · rintro ⟨i, q, hqi, -, hqne, hqeq⟩
      exact (hasChildren_iff _ _).mpr ⟨q, List.getElem?_mem hqi, hqne, hqeq⟩

/-- The Eevee/Leafeon expansion of the C1 scenario. -/
def expEevee : Expansion := ⟨psEevee, [], [], []⟩

/-- Witness for C1 on the Eevee/Leafeon expansion: Leafeon (position 1) gets
an `evolution_base` that is the unique root ancestor of its name, and the
other-record characterization of `has_evolutions`. -/
theorem claim_C1_witness :
    ∃ d, (expansionToDocs false (fun _ => S "u") expEevee (S "E"))[1]? = some d ∧
      (∃ base, jGet d.metadata (S "evolution_base") = some (.str base) ∧
        IsRoot expEevee.pokemon
          (normName (mkCreature (some (S "Leafeon")) (some (S "Eevee"))).name) base ∧
        ∀ r, IsRoot expEevee.pokemon
          (normName (mkCreature (some (S "Leafeon")) (some (S "Eevee"))).name) r →
            r = base) ∧
      (jGet d.metadata (S "has_evolutions") = some (.boolean true) ↔
        ∃ (i : Nat) (q : Creature), expEevee.pokemon[i]? = some q ∧ i ≠ 1 ∧
          normName q.evolves_from ≠ [] ∧
          normName q.evolves_from
            = normName (mkCreature (some (S "Leafeon")) (some (S "Eevee"))).name) := by
  apply claim_C1
  · apply acyclic_of_rank expEevee.pokemon (fun s => if s = S "Eevee" then 1 else 0)
    rintro a b ⟨p, hp, hname, hef, hb⟩
    rcases List.mem_cons.mp hp with rfl | hp
    · rw [← hef] at hb
      exact absurd rfl hb
    · rcases List.mem_cons.mp hp with rfl | hp
      · rw [← hname, ← hef]
        decide
      · simp at hp
  · show ∀ p ∈ psEevee, normName p.evolves_from ≠ [] →
      (nameMap psEevee (normName p.evolves_from)).isSome = true
    decide
  · rfl
  · decide

/-! ### Lemmas about the tag engine -/

/-- Membership in the extractor's output (no types given) is membership in the
fired-rule tags: `sorted(set(...))` preserves the underlying set. -/
theorem mem_extract_none_iff (text a : Str) :
    a ∈ extract_synergy_tags text none ↔
      a ∈ (TAG_RULES.filter (fun r => patSearch r.1 (pyLower text))).map
        (fun r => r.2) := by
  show a ∈ (((TAG_RULES.filter (fun r : Pat × Str => patSearch r.1 (pyLower text))).map
      (fun r : Pat × Str => r.2) ++ []).dedup).mergeSort (fun a b => !strLt b a) ↔ _
  rw [List.mem_mergeSort, List.mem_dedup, List.append_nil]

/-- A fired tag comes from a rule of `TAG_RULES` whose pattern matched. -/
theorem rule_fired {text tag : Str} (h : tag ∈ extract_synergy_tags text none) :
    ∃ r ∈ TAG_RULES, patSearch r.1 (pyLower text) = true ∧ r.2 = tag := by
  rw [mem_extract_none_iff] at h
  obtain ⟨r, hrf, hr2⟩ := List.mem_map.mp h
  obtain ⟨hm, hs⟩ := List.mem_filter.mp hrf
  exact ⟨r, hm, hs, hr2⟩

/-- A search hit yields a nonempty end-set at some start position. -/
theorem patSearch_ne {p : Pat} {l : Str} (h : patSearch p l = true) :
    ∃ i, matchEnds l p i ≠ [] := by
  rw [patSearch, List.any_eq_true] at h
  obtain ⟨i, -, hne⟩ := h
  refine ⟨i, ?_⟩
  intro hnil
  rw [hnil] at hne
  exact absurd hne (by decide)

/-- A nonempty end-set at an in-range start position yields a search hit. -/
theorem patSearch_of_matchEnds {p : Pat} {l : Str} {i : Nat} (hi : i ≤ l.length)
    (h : matchEnds l p i ≠ []) : patSearch p l = true := by
  rw [patSearch, List.any_eq_true]
  refine ⟨i, List.mem_range.mpr (by omega), ?_⟩
  cases hme : matchEnds l p i with
  | nil => exact absurd hme h
  | cons a t => rfl

/-- A sequence match forces a match of its first component. -/
theorem matchEnds_seq_fst {l : Str} {p q : Pat} {i : Nat}
    (h : matchEnds l (.seq p q) i ≠ []) : matchEnds l p i ≠ [] := by
  rw [matchEnds] at h
  intro hnil
  rw [hnil] at h
  exact h rfl

/-- A sequence match forces a match of its second component somewhere. -/
theorem matchEnds_seq_snd {l : Str} {p q : Pat} {i : Nat}
    (h : matchEnds l (.seq p q) i ≠ []) : ∃ j, matchEnds l q j ≠ [] := by
  rw [matchEnds] at h
  by_contra hall
  push_neg at hall
  exact h (List.flatMap_eq_nil_iff.mpr (fun j _ => hall j))

/-- An alternation match forces one of the branches to match. -/
theorem matchEnds_alt_ne {l : Str} {p q : Pat} {i : Nat}
    (h : matchEnds l (.alt p q) i ≠ []) :
    matchEnds l p i ≠ [] ∨ matchEnds l q i ≠ [] := by
  rw [matchEnds] at h
  by_contra hc
  push_neg at hc
  refine h ?_
  rw [hc.1, hc.2]
  rfl

/-- A literal match means the word occurs at the start position. -/
theorem matchEnds_lit_sub {l w : Str} {i : Nat}
    (h : matchEnds l (.lit w) i ≠ []) : subAt l i w = true := by
  rw [matchEnds] at h
  by_cases hs : subAt l i w = true
  · exact hs
  · rw [if_neg hs] at h
    exact absurd rfl h

/-- End-set of `\b` at a boundary. -/
theorem matchEnds_wb_eq {l : Str} {i : Nat} (h : boundaryAt l i = true) :
    matchEnds l .wb i = [i] := by
  rw [matchEnds, if_pos h]

/-- End-set of a literal that occurs at the start position. -/
theorem matchEnds_lit_eq {l w : Str} {i : Nat} (h : subAt l i w = true) :
    matchEnds l (.lit w) i = [i + w.length] := by
  rw [matchEnds, if_pos h]

/-- A single space makes `\s+` consume one character. -/
theorem matchEnds_ws1_mem {l : Str} {j : Nat} (h : l[j]? = some ' ') :
    j + 1 ∈ matchEnds l .ws1 j := by
  rw [matchEnds]
  apply List.mem_map.mpr
  refine ⟨0, List.mem_range.mpr ?_, rfl⟩
  obtain ⟨hlt, hEl⟩ := List.getElem?_eq_some_iff.mp h
  rw [List.drop_eq_getElem_cons hlt, hEl, List.takeWhile_cons, if_pos (by decide)]
  simp

/-- An end of the body is an end of the optional pattern. -/
theorem matchEnds_opt_mem {l : Str} {p : Pat} {i j : Nat}
    (h : j ∈ matchEnds l p i) : j ∈ matchEnds l (.opt p) i := by
  rw [matchEnds]
  exact List.mem_cons_of_mem _ h

/-- Composing end positions through a sequence. -/
theorem matchEnds_seq_mem {l : Str} {p q : Pat} {i j k : Nat}
    (hj : j ∈ matchEnds l p i) (hk : k ∈ matchEnds l q j) :
    k ∈ matchEnds l (.seq p q) i := by
  rw [matchEnds]
  exact List.mem_flatMap.mpr ⟨j, hj, hk⟩

/-- A sequence matches when the first part ends where the second part has a
match. -/
theorem matchEnds_seq_ne_of {l : Str} {p q : Pat} {i j : Nat}
    (hj : j ∈ matchEnds l p i) (hq : matchEnds l q j ≠ []) :
    matchEnds l (.seq p q) i ≠ [] := by
  rw [matchEnds]
  intro hnil
  exact hq (List.flatMap_eq_nil_iff.mp hnil j hj)

/-- A match of the left branch is a match of the alternation. -/
theorem matchEnds_alt_ne_left {l : Str} {p q : Pat} {i : Nat}
    (h : matchEnds l p i ≠ []) : matchEnds l (.alt p q) i ≠ [] := by
  rw [matchEnds]
  intro hnil
  exact h (List.append_eq_nil.mp hnil).1

/-- An occurrence of a non-empty word starts inside the text. -/
theorem subAt_le {l w : Str} {i : Nat} (hw : w ≠ []) (h : subAt l i w = true) :
    i ≤ l.length := by
  rw [subAt, decide_eq_true_eq] at h
  by_contra hgt
  push_neg at hgt
  rw [List.drop_eq_nil_of_le (le_of_lt hgt), List.take_nil] at h
  exact hw h.symm

/-- The characters of an occurrence, read off position by position. -/
theorem subAt_get {l w : Str} {i k : Nat} (h : subAt l i w = true)
    (hk : k < w.length) : l[i + k]? = w[k]? := by
  rw [subAt, decide_eq_true_eq] at h
  have h1 : ((l.drop i).take w.length)[k]? = w[k]? := by rw [h]
  rw [List.getElem?_take_of_lt hk, List.getElem?_drop] at h1
  exact h1

/-- An occurrence of a concatenation starts with an occurrence of its first
half. -/
theorem subAt_front {l w1 w2 : Str} {i : Nat}
    (h : subAt l i (w1 ++ w2) = true) : subAt l i w1 = true := by
  rw [subAt, decide_eq_true_eq] at h ⊢
  have h2 := congrArg (List.take w1.length) h
  rw [List.take_take, min_eq_left (by rw [List.length_append]; omega),
    List.take_left] at h2
  exact h2

/-- An occurrence of a concatenation continues with an occurrence of its
second half. -/
theorem subAt_back {l w1 w2 : Str} {i : Nat}
    (h : subAt l i (w1 ++ w2) = true) : subAt l (i + w1.length) w2 = true := by
  rw [subAt, decide_eq_true_eq] at h ⊢
  have h2 := congrArg (List.drop w1.length) h
  rw [List.drop_take, List.drop_drop, List.drop_left,
    show (w1 ++ w2).length - w1.length = w2.length by rw [List.length_append]; omega] at h2
  exact h2

/-- A single character at a position is a one-character occurrence. -/
theorem subAt_single {l : Str} {j : Nat} {c : Char} (h : l[j]? = some c) :
    subAt l j [c] = true := by
  rw [subAt, decide_eq_true_eq]
  obtain ⟨hlt, hEl⟩ := List.getElem?_eq_some_iff.mp h
  rw [List.drop_eq_getElem_cons hlt]
  simp [hEl]

/-- An occurrence of a non-empty word witnesses substring containment. -/
theorem containsSub_of_subAt {l w : Str} {i : Nat} (hw : w ≠ [])
    (h : subAt l i w = true) : containsSub l w = true := by
  rw [containsSub, List.any_eq_true]
  exact ⟨i, List.mem_range.mpr (Nat.lt_succ_of_le (subAt_le hw h)), h⟩

/-- A word character followed by a non-word character is a boundary. -/
theorem boundaryAt_of_word_nonword {l : Str} {j : Nat} {c d : Char}
    (h1 : l[j - 1]? = some c) (h2 : l[j]? = some d) (hj : j ≠ 0)
    (hc : wordChar c = true) (hd : wordChar d = false) :
    boundaryAt l j = true := by
  rw [boundaryAt, h1, h2]
  simp [hc, hd, hj]

/-- A search hit of the draw rule forces the substring `draw`. -/
theorem patSearch_draw_contains {l : Str} (h : patSearch drawPat l = true) :
    containsSub l (S "draw") = true := by
  obtain ⟨i, hne⟩ := patSearch_ne h
  rw [drawPat] at hne
  rcases matchEnds_alt_ne hne with h1 | h2
  · obtain ⟨j, hj⟩ := matchEnds_seq_snd h1
    exact containsSub_of_subAt (by decide) (matchEnds_lit_sub (matchEnds_seq_fst hj))
  · obtain ⟨j, hj⟩ := matchEnds_seq_snd h2
    exact containsSub_of_subAt (by decide) (matchEnds_lit_sub (matchEnds_seq_fst hj))

/-- A search hit of the energy rule forces the substring `energy` or
`accelerat`. -/
theorem patSearch_energy_contains {l : Str} (h : patSearch energyPat l = true) :
    containsSub l (S "energy") = true ∨ containsSub l (S "accelerat") = true := by
  obtain ⟨i, hne⟩ := patSearch_ne h
  rw [energyPat] at hne
  rcases matchEnds_alt_ne hne with h1 | h234
  · obtain ⟨j1, hj1⟩ := matchEnds_seq_snd h1
    obtain ⟨j2, hj2⟩ := matchEnds_seq_snd hj1
    obtain ⟨j3, hj3⟩ := matchEnds_seq_snd hj2
    obtain ⟨j4, hj4⟩ := matchEnds_seq_snd hj3
    exact Or.inl (containsSub_of_subAt (by decide)
      (matchEnds_lit_sub (matchEnds_seq_fst hj4)))
  · rcases matchEnds_alt_ne h234 with h2 | h34
    · obtain ⟨j1, hj1⟩ := matchEnds_seq_snd h2
      obtain ⟨j2, hj2⟩ := matchEnds_seq_snd hj1
      obtain ⟨j3, hj3⟩ := matchEnds_seq_snd hj2
      exact Or.inl (containsSub_of_subAt (by decide)
        (matchEnds_lit_sub (matchEnds_seq_fst hj3)))
    · rcases matchEnds_alt_ne h34 with h3 | h4
      · obtain ⟨j1, hj1⟩ := matchEnds_seq_snd h3
        obtain ⟨j2, hj2⟩ := matchEnds_seq_snd hj1
        obtain ⟨j3, hj3⟩ := matchEnds_seq_snd hj2
        exact Or.inl (containsSub_of_subAt (by decide)
          (matchEnds_lit_sub (matchEnds_seq_fst hj3)))
      · obtain ⟨j1, hj1⟩ := matchEnds_seq_snd h4
        exact Or.inr (containsSub_of_subAt (by decide)
          (matchEnds_lit_sub (matchEnds_seq_fst hj1)))

/-- Claim C7: an attack whose damage field holds the number `0` contributes a
damage line reading `0` to the canonical text lines, and the document text is
exactly those lines joined by newlines. -/
theorem claim_C7 : ∀ (card : Creature) (ename : Str) (atk : Attack),
    atk ∈ card.attacks → atk.damage = some (.num 0) →
    (S "attack." ++ attackDisplayName atk ++ S ".damage: " ++ S "0")
      ∈ pokemonLines card ename ∧
    ∀ (ct : Bool) (uid ebase : Str) (kids : Bool),
      (pokemonToDoc ct uid card ebase kids ename).text
        = .str (joinWith (S "\n") (pokemonLines card ename)) := by
  intro card ename atk hmem hdmg
  refine ⟨?_, fun ct uid ebase kids => rfl⟩
  have hline : (S "attack." ++ attackDisplayName atk ++ S ".damage: " ++ S "0")
      ∈ attackLines atk := by
    rw [attackLines, hdmg]
    apply List.mem_append_left
    apply List.mem_append_right
    have hnum : pyStr ((some (JVal.num 0)).getD JVal.null) = S "0" := by
      show pyRepr (JVal.num 0) = S "0"
      rw [pyRepr]
      show ([] : Str) ++ natChars 0 = S "0"
      rw [List.nil_append, natChars, dif_pos (by omega)]
      decide
    rw [if_pos (show damageRenderable (some (JVal.num 0)) = true from rfl), hnum]
    exact List.mem_singleton_self _
  exact List.mem_append_right _ (List.mem_flatMap.mpr ⟨atk, hmem, hline⟩)

/-- An attack with numeric damage `0`, for the C7 witness. -/
def atkZero : Attack := ⟨some (S "Tackle"), none, some (.num 0), none⟩

/-- A creature carrying `atkZero` as its only attack. -/
def cardZero : Creature :=
  ⟨some (S "Zeromon"), none, [], none, none, none, none, [], [atkZero]⟩

/-- Witness for C7: the zero-damage attack of `cardZero` renders its damage
line. -/
theorem claim_C7_witness :
    (S "attack." ++ attackDisplayName atkZero ++ S ".damage: " ++ S "0")
      ∈ pokemonLines cardZero (S "E") ∧
    (pokemonToDoc false (S "u") cardZero [] false (S "E")).text
      = .str (joinWith (S "\n") (pokemonLines cardZero (S "E"))) := by
  have h := claim_C7 cardZero (S "E") atkZero (List.mem_singleton_self _) rfl
  exact ⟨h.1, h.2 false (S "u") [] false⟩

/-- Claim C10: a creature's `has_evolutions` metadata is true iff some record
of the same list — possibly the creature itself — has a non-empty normalized
evolves-from equal to the creature's normalized name. -/
theorem claim_C10 : ∀ (ct : Bool) (fresh : Nat → Str) (e : Expansion) (ename : Str)
    (j : Nat) (p : Creature), e.pokemon[j]? = some p →
    ∃ d, (expansionToDocs ct fresh e ename)[j]? = some d ∧
      (jGet d.metadata (S "has_evolutions") = some (.boolean true) ↔
        ∃ q ∈ e.pokemon, normName q.evolves_from ≠ [] ∧
          normName q.evolves_from = normName p.name) := by
  intro ct fresh e ename j p hj
  refine ⟨_, expansionToDocs_pokemon ct fresh e ename j p hj, ?_⟩
  have hmeta : jGet (pokemonToDoc ct (fresh j) p (findBase e.pokemon (normName p.name))
      (hasChildren e.pokemon (normName p.name)) ename).metadata (S "has_evolutions")
      = some (.boolean (hasChildren e.pokemon (normName p.name))) := rfl
  rw [hmeta, Option.some.injEq, JVal.boolean.injEq]
  exact hasChildren_iff e.pokemon (normName p.name)

/-- The one-creature self-loop expansion. -/
def expSelf : Expansion := ⟨psSelfLoop, [], [], []⟩

/-- Witness for C10 on the self-loop expansion: the single creature names
itself as parent, and its `has_evolutions` characterization holds. -/
theorem claim_C10_witness :
    ∃ d, (expansionToDocs false (fun _ => S "u") expSelf (S "E"))[0]? = some d ∧
      (jGet d.metadata (S "has_evolutions") = some (.boolean true) ↔
        ∃ q ∈ expSelf.pokemon, normName q.evolves_from ≠ [] ∧
          normName q.evolves_from
            = normName (mkCreature (some (S "A")) (some (S "A"))).name) :=
  claim_C10 false (fun _ => S "u") expSelf (S "E") 0
    (mkCreature (some (S "A")) (some (S "A"))) rfl

/-! ### Claims about the tag extractor -/

/-- A boundary-anchored occurrence of `draw 3 cards` fires the draw rule
(through its first alternative `\bdraw\b`). -/
theorem draw_fires (text : Str) : ∀ i : Nat,
    subAt (pyLower text) i (S "draw 3 cards") = true →
    boundaryAt (pyLower text) i = true →
    S "draw" ∈ extract_synergy_tags text none := by
  intro i hsub hb
  have hsub2 := hsub
  rw [show (S "draw 3 cards" : Str) = S "draw" ++ S " 3 cards" by decide] at hsub2
  have hdraw : subAt (pyLower text) i (S "draw") = true := subAt_front hsub2
  have hw : (pyLower text)[i + 3]? = some 'w' := by
    have h3 := subAt_get hsub (show 3 < (S "draw 3 cards").length by decide)
    rwa [show (S "draw 3 cards")[3]? = some 'w' by decide] at h3
  have hsp : (pyLower text)[i + 4]? = some ' ' := by
    have h4 := subAt_get hsub (show 4 < (S "draw 3 cards").length by decide)
    rwa [show (S "draw 3 cards")[4]? = some ' ' by decide] at h4
  have hw4 : (pyLower text)[i + 4 - 1]? = some 'w' := by
    show (pyLower text)[i + 3]? = some 'w'
    exact hw
  have hb4 : boundaryAt (pyLower text) (i + 4) = true :=
    boundaryAt_of_word_nonword hw4 hsp (by omega) (by decide) (by decide)
  have hlitD : i + 4 ∈ matchEnds (pyLower text) (.lit (S "draw")) i := by
    rw [matchEnds_lit_eq hdraw]
    exact List.mem_singleton_self _
  have hwbI : i ∈ matchEnds (pyLower text) Pat.wb i := by
    rw [matchEnds_wb_eq hb]
    exact List.mem_singleton_self _
  have hwb4 : matchEnds (pyLower text) Pat.wb (i + 4) ≠ [] := by
    rw [matchEnds_wb_eq hb4]
    exact List.cons_ne_nil _ _
  have h0 := matchEnds_seq_ne_of hwbI (matchEnds_seq_ne_of hlitD hwb4)
  have hps : patSearch drawPat (pyLower text) = true := by
    apply patSearch_of_matchEnds (subAt_le (by decide) hsub)
    rw [drawPat]
    exact matchEnds_alt_ne_left h0
  rw [mem_extract_none_iff]
  exact List.mem_map.mpr ⟨(drawPat, S "draw"),
    List.mem_filter.mpr ⟨List.mem_cons_of_mem _ (List.mem_cons_self _ _), hps⟩, rfl⟩

/-- An occurrence of `attach an energy` with boundaries at both ends fires the
energy rule (through its first alternative). -/
theorem energy_fires (text : Str) : ∀ i : Nat,
    subAt (pyLower text) i (S "attach an energy") = true →
    boundaryAt (pyLower text) i = true →
    boundaryAt (pyLower text) (i + 16) = true →
    S "energy_accel" ∈ extract_synergy_tags text none := by
  intro i hsub hb0 hb16
  have hs1 := hsub
  rw [show (S "attach an energy" : Str) = S "attach" ++ S " an energy" by decide] at hs1
  have hattach : subAt (pyLower text) i (S "attach") = true := subAt_front hs1
  have hs2 := hsub
  rw [show (S "attach an energy" : Str) = S "attach an " ++ S "energy" by decide] at hs2
  have henergy : subAt (pyLower text) (i + 10) (S "energy") = true := subAt_back hs2
  have hc6 : (pyLower text)[i + 6]? = some ' ' := by
    have h := subAt_get hsub (show 6 < (S "attach an energy").length by decide)
    rwa [show (S "attach an energy")[6]? = some ' ' by decide] at h
  have hc7 : (pyLower text)[i + 7]? = some 'a' := by
    have h := subAt_get hsub (show 7 < (S "attach an energy").length by decide)
    rwa [show (S "attach an energy")[7]? = some 'a' by decide] at h
  have hc8 : (pyLower text)[i + 8]? = some 'n' := by
    have h := subAt_get hsub (show 8 < (S "attach an energy").length by decide)
    rwa [show (S "attach an energy")[8]? = some 'n' by decide] at h
  have hc9 : (pyLower text)[i + 9]? = some ' ' := by
    have h := subAt_get hsub (show 9 < (S "attach an energy").length by decide)
    rwa [show (S "attach an energy")[9]? = some ' ' by decide] at h
  have ha7 : subAt (pyLower text) (i + 7) (S "a") = true := by
    rw [show (S "a" : Str) = ['a'] by decide]
    exact subAt_single hc7
  have hn8 : subAt (pyLower text) (i + 8) (S "n") = true := by
    rw [show (S "n" : Str) = ['n'] by decide]
    exact subAt_single hc8
  have hlitE : i + 16 ∈ matchEnds (pyLower text) (.lit (S "energy")) (i + 10) := by
    rw [matchEnds_lit_eq henergy]
    exact List.mem_singleton_self _
  have hwb16 : matchEnds (pyLower text) Pat.wb (i + 16) ≠ [] := by
    rw [matchEnds_wb_eq hb16]
    exact List.cons_ne_nil _ _
  have hE := matchEnds_seq_ne_of hlitE hwb16
  have hlitA : i + 8 ∈ matchEnds (pyLower text) (.lit (S "a")) (i + 7) := by
    rw [matchEnds_lit_eq ha7]
    exact List.mem_singleton_self _
  have hlitN : i + 9 ∈ matchEnds (pyLower text) (.lit (S "n")) (i + 8) := by
    rw [matchEnds_lit_eq hn8]
    exact List.mem_singleton_self _
  have hA : i + 10 ∈ matchEnds (pyLower text)
      (.seq (.lit (S "a")) (.seq (.opt (.lit (S "n"))) .ws1)) (i + 7) :=
    matchEnds_seq_mem hlitA
      (matchEnds_seq_mem (matchEnds_opt_mem hlitN) (matchEnds_ws1_mem hc9))
  have hD := matchEnds_seq_ne_of (matchEnds_opt_mem hA) hE
  have hC := matchEnds_seq_ne_of (matchEnds_ws1_mem hc6) hD
  have hlitAt : i + 6 ∈ matchEnds (pyLower text) (.lit (S "attach")) i := by
    rw [matchEnds_lit_eq hattach]
    exact List.mem_singleton_self _
  have hwbI : i ∈ matchEnds (pyLower text) Pat.wb i := by
    rw [matchEnds_wb_eq hb0]
    exact List.mem_singleton_self _
  have h0 := matchEnds_seq_ne_of hwbI (matchEnds_seq_ne_of hlitAt hC)
  have hps : patSearch energyPat (pyLower text) = true := by
    apply patSearch_of_matchEnds (subAt_le (by decide) hsub)
    rw [energyPat]
    exact matchEnds_alt_ne_left h0
  rw [mem_extract_none_iff]
  exact List.mem_map.mpr ⟨(energyPat, S "energy_accel"),
    List.mem_filter.mpr ⟨List.mem_cons_of_mem _
      (List.mem_cons_of_mem _ (List.mem_cons_self _ _)), hps⟩, rfl⟩

/-- Without the substring `draw`, the draw tag cannot fire. -/
theorem draw_not_fired {text : Str}
    (hd : containsSub (pyLower text) (S "draw") = false) :
    S "draw" ∉ extract_synergy_tags text none := by
  intro h
  obtain ⟨r, hm, hs, h2⟩ := rule_fired h
  simp only [TAG_RULES, List.mem_cons, List.not_mem_nil, or_false] at hm
  rcases hm with rfl | rfl | rfl | rfl | rfl | rfl | rfl | rfl | rfl | rfl
  · exact absurd h2 (by decide)
  · rw [patSearch_draw_contains hs] at hd
    exact absurd hd (by decide)
  · exact absurd h2 (by decide)
  · exact absurd h2 (by decide)
  · exact absurd h2 (by decide)
  · exact absurd h2 (by decide)
  · exact absurd h2 (by decide)
  · exact absurd h2 (by decide)
  · exact absurd h2 (by decide)
  · exact absurd h2 (by decide)

/-- Without the substrings `energy` and `accelerat`, the energy tag cannot
fire. -/
theorem energy_not_fired {text : Str}
    (he : containsSub (pyLower text) (S "energy") = false)
    (ha : containsSub (pyLower text) (S "accelerat") = false) :
    S "energy_accel" ∉ extract_synergy_tags text none := by
  intro h
  obtain ⟨r, hm, hs, h2⟩ := rule_fired h
  simp only [TAG_RULES, List.mem_cons, List.not_mem_nil, or_false] at hm
  rcases hm with rfl | rfl | rfl | rfl | rfl | rfl | rfl | rfl | rfl | rfl
  · exact absurd h2 (by decide)
  · exact absurd h2 (by decide)
  · rcases patSearch_energy_contains hs with hx | hx
    · rw [hx] at he
      exact absurd he (by decide)
    · rw [hx] at ha
      exact absurd ha (by decide)
  · exact absurd h2 (by decide)
  · exact absurd h2 (by decide)
  · exact absurd h2 (by decide)
  · exact absurd h2 (by decide)
  · exact absurd h2 (by decide)
  · exact absurd h2 (by decide)
  · exact absurd h2 (by decide)

/-- The supporter effect text of the C4 scenario. -/
def cyrusText : Str := S "Search your deck for a Pokemon and discard 1 card."

/-- Counterexample to claim C4 as stated: on the Cyrus effect text the
extractor does not return both `tutor` and `discard` — the discard rule wants
`discard` followed by `a`, `an`, `any`, `up to` or `from`, and `discard 1
card` has a numeral there. -/
theorem claim_C4_counterexample :
    ¬ (S "tutor" ∈ extract_synergy_tags cyrusText none ∧
       S "discard" ∈ extract_synergy_tags cyrusText none) := by
  rintro ⟨-, hd⟩
  rw [mem_extract_none_iff] at hd
  revert hd
  decide

/-- Claim C4 (amended): on the Cyrus effect text the extractor returns the
`tutor` tag but not the `discard` tag. -/
theorem claim_C4 :
    S "tutor" ∈ extract_synergy_tags cyrusText none ∧
    S "discard" ∉ extract_synergy_tags cyrusText none := by
  constructor
  · rw [mem_extract_none_iff]
    decide
  · rw [mem_extract_none_iff]
    decide

/-- Counterexample to claim C5 as stated: the text `Withdraw 3 cards.`
contains the substring `draw 3 cards`, yet no `draw` tag is produced — both
alternatives of the draw rule require a word boundary before `draw`, and in
`withdraw` the occurrence sits after a word character. -/
theorem claim_C5_counterexample :
    containsSub (pyLower (S "Withdraw 3 cards.")) (S "draw 3 cards") = true ∧
    S "draw" ∉ extract_synergy_tags (S "Withdraw 3 cards.") none := by
  refine ⟨by decide, ?_⟩
  rw [mem_extract_none_iff]
  decide

/-- Claim C5 (amended): a text whose lowercased form contains `draw 3 cards`
starting at a word boundary yields the `draw` tag; a text whose lowercased
form contains `attach an energy` with word boundaries at both ends yields the
`energy_accel` tag; and a text whose lowercased form contains none of the
substrings `draw`, `energy` and `accelerat` yields neither tag. -/
theorem claim_C5 : ∀ text : Str,
    (∀ i : Nat, subAt (pyLower text) i (S "draw 3 cards") = true →
      boundaryAt (pyLower text) i = true →
      S "draw" ∈ extract_synergy_tags text none) ∧
    (∀ i : Nat, subAt (pyLower text) i (S "attach an energy") = true →
      boundaryAt (pyLower text) i = true →
      boundaryAt (pyLower text) (i + 16) = true →
      S "energy_accel" ∈ extract_synergy_tags text none) ∧
    (containsSub (pyLower text) (S "draw") = false →
      containsSub (pyLower text) (S "energy") = false →
      containsSub (pyLower text) (S "accelerat") = false →
      S "draw" ∉ extract_synergy_tags text none ∧
      S "energy_accel" ∉ extract_synergy_tags text none) := by
  intro text
  refine ⟨draw_fires text, energy_fires text, ?_⟩
  intro hd he ha
  exact ⟨draw_not_fired hd, energy_not_fired he ha⟩

/-- Witness for C5: a draw text gets `draw`, an energy-attach text gets
`energy_accel`, and a heal text gets neither. -/
theorem claim_C5_witness :
    S "draw" ∈ extract_synergy_tags (S "Draw 3 cards!") none ∧
    S "energy_accel" ∈ extract_synergy_tags (S "Attach an energy.") none ∧
    (S "draw" ∉ extract_synergy_tags (S "Heal 30 damage.") none ∧
     S "energy_accel" ∉ extract_synergy_tags (S "Heal 30 damage.") none) :=
  ⟨(claim_C5 (S "Draw 3 cards!")).1 0 (by decide) (by decide),
   (claim_C5 (S "Attach an energy.")).2.1 0 (by decide) (by decide) (by decide),
   (claim_C5 (S "Heal 30 damage.")).2.2 (by decide) (by decide) (by decide)⟩

end CardDocs
